import Mathlib

/-!
# Verified model of the `model-selector` core

A shallow embedding of the query-to-ranking pipeline (condition language,
alias expansion, weighted attribute matching, ranking) and of the fallback
execution engine (error classification, per-candidate retry, cross-candidate
fallback, streaming variant) of the `model-selector` repository, together
with theorems settling the specification claims.

Strings are modelled as `List Char`; JavaScript numbers are modelled as
rationals (`ℚ`).  Wall-clock time (timeouts, backoff sleeps, `durationMs`)
is outside the model: `durationMs` is recorded as `0` and the
`retryDelay`/`timeout` options are carried but never consulted, exactly as
they never influence the control flow visible to a caller.
-/

namespace ModelSelector

/-- JavaScript whitespace as used by `String.prototype.trim` and `\s`
(ASCII subset; the sources only process ASCII queries). -/
def jsWhitespace (c : Char) : Bool :=
  c = ' ' || c = '\t' || c = '\n' || c = '\r' || c = '\x0b' || c = '\x0c'

/-- Left part of `String.prototype.trim`. -/
def trimLeft (s : List Char) : List Char := s.dropWhile jsWhitespace

/-- Right part of `String.prototype.trim`. -/
def trimRight (s : List Char) : List Char := (s.reverse.dropWhile jsWhitespace).reverse

/-- Model of `String.prototype.trim`. -/
def trim (s : List Char) : List Char := trimRight (trimLeft s)

/-- Model of `String.prototype.split(',')`: splits on every comma, keeping
empty segments; the empty string yields one empty segment. -/
def splitComma : List Char → List (List Char)
  | [] => [[]]
  | c :: cs =>
    match splitComma cs with
    | [] => [[]]
    | t :: ts => if c = ',' then [] :: t :: ts else (c :: t) :: ts

/-- `Array.prototype.join(sep)` on a list of strings. -/
def joinWith (sep : List Char) : List (List Char) → List Char
  | [] => []
  | [x] => x
  | x :: xs => x ++ sep ++ joinWith sep xs

/-- `parseInt(ds, 10)` on a string of decimal digits. -/
def digitsToNat (ds : List Char) : Nat :=
  ds.foldl (fun n c => n * 10 + (c.toNat - '0'.toNat)) 0

/-- Model of the greedy regex `/^(.+):(\d+)$/` used for the weight suffix:
because `(.+)` is greedy, a match splits the token at the *last* colon that
is followed by one or more digits running to the end of the string, with a
non-empty prefix.  Returns `(prefix, digits)` on a match. -/
def weightSplit (s : List Char) : Option (List Char × List Char) :=
  let r := s.reverse
  let ds := r.takeWhile Char.isDigit
  match r.dropWhile Char.isDigit with
  | ':' :: p => if ds.isEmpty || p.isEmpty then none else some (p.reverse, ds.reverse)
  | _ => none

/-- First character class of `/^[a-z_][a-z0-9_]*$/i`. -/
def isIdentStart (c : Char) : Bool := c.isAlpha || c = '_'

/-- Continuation character class of `/^[a-z_][a-z0-9_]*$/i`. -/
def isIdentChar (c : Char) : Bool := c.isAlphanum || c = '_'

/-- Model of `/^[a-z_][a-z0-9_]*$/i`. -/
def isIdent (s : List Char) : Bool :=
  match s with
  | [] => false
  | c :: cs => isIdentStart c && cs.all isIdentChar

/-- The comparison operators of the condition language. -/
inductive ComparisonOperator
  | eq | ne | gt | ge | lt | le
deriving DecidableEq, Repr

/-- The operator alternation `(>=|<=|!=|>|<|=)`: longer operators are tried
before their one-character prefixes, exactly as in the source regex. -/
def matchOpPrefix (s : List Char) : Option (ComparisonOperator × List Char) :=
  match s with
  | '>' :: '=' :: r => some (.ge, r)
  | '<' :: '=' :: r => some (.le, r)
  | '!' :: '=' :: r => some (.ne, r)
  | '>' :: r => some (.gt, r)
  | '<' :: r => some (.lt, r)
  | '=' :: r => some (.eq, r)
  | _ => none

/-- Model of `/^([a-z_][a-z0-9_]*)\s*(>=|<=|!=|>|<|=)\s*(.+)$/i`.  The three
character classes (identifier characters, whitespace, operator characters)
are disjoint, so the greedy match needs no backtracking.  `(.+)` requires a
non-empty remainder; the caller immediately applies `.trim()` to the third
capture group, and for a non-empty remainder the combination of `\s*`
backtracking and that `.trim()` is exactly `trim` of the remainder, which is
what the third component records. -/
def comparisonSplit (s : List Char) : Option (List Char × ComparisonOperator × List Char) :=
  match s with
  | [] => none
  | c :: cs =>
    if isIdentStart c then
      let identTail := cs.takeWhile isIdentChar
      let rest := (cs.drop identTail.length).dropWhile jsWhitespace
      match matchOpPrefix rest with
      | none => none
      | some (op, r) => if r.isEmpty then none else some (c :: identTail, op, trim r)
    else none

/-- An attribute value: boolean, number, or string
(`AttributeValue = boolean | number | string`). -/
inductive AttributeValue
  | bool (b : Bool)
  | num (q : ℚ)
  | str (s : List Char)
deriving DecidableEq, Repr

/-- One decimal digit's contribution, for `Number(...)` parsing. -/
def digitsToRat (ds : List Char) : ℚ := (digitsToNat ds : ℚ)

/-- The unsigned decimal part of the JavaScript `Number(string)` grammar:
`digits [. digits?] [exponent]` or `. digits [exponent]`, where the exponent
is `e`/`E`, an optional sign and one or more digits.  Returns `none` when
the text is not in the grammar (which `Number` maps to `NaN`). -/
def jsDecimal (s : List Char) : Option ℚ :=
  let intDs := s.takeWhile Char.isDigit
  let rest := s.drop intDs.length
  let (fracDs, rest') :=
    match rest with
    | '.' :: r => (r.takeWhile Char.isDigit, r.drop (r.takeWhile Char.isDigit).length)
    | _ => ([], rest)
  let hadDot := rest ≠ rest'  -- a '.' was consumed
  if intDs.isEmpty && fracDs.isEmpty then none
  else
    let mantissa : ℚ := digitsToRat intDs + digitsToRat fracDs / (10 : ℚ) ^ fracDs.length
    match rest' with
    | [] => some mantissa
    | e :: r =>
      if e = 'e' || e = 'E' then
        let (sign, ds) : ℚ × List Char :=
          match r with
          | '+' :: r' => (1, r')
          | '-' :: r' => (-1, r')
          | _ => (1, r)
        if ds.isEmpty || !(ds.all Char.isDigit) then none
        else some (mantissa * (10 : ℚ) ^ (sign * digitsToRat ds : ℚ).num)
      else if hadDot && intDs.isEmpty && fracDs.isEmpty then none
      else none

/-- Model of JavaScript `Number(string)` restricted to finite values:
whitespace-trimmed; the empty string is `0`; hexadecimal, octal and binary
literals; otherwise an optionally signed decimal literal.  `none` stands for
`NaN`; the non-finite literals (`Infinity`) are outside the rational-valued
model and also map to `none` (no claim evaluates them). -/
def jsNumber (s : List Char) : Option ℚ :=
  let t := trim s
  match t with
  | [] => some 0
  | '0' :: x :: ds =>
    if x = 'x' || x = 'X' then
      if !ds.isEmpty && ds.all (fun c => c.isDigit || ('a' ≤ c.toLower && c.toLower ≤ 'f')) then
        some ((ds.foldl (fun n c => n * 16 + (if c.isDigit then c.toNat - '0'.toNat else c.toLower.toNat - 'a'.toNat + 10)) 0 : Nat) : ℚ)
      else none
    else if x = 'o' || x = 'O' then
      if !ds.isEmpty && ds.all (fun c => '0' ≤ c && c ≤ '7') then
        some ((ds.foldl (fun n c => n * 8 + (c.toNat - '0'.toNat)) 0 : Nat) : ℚ)
      else none
    else if x = 'b' || x = 'B' then
      if !ds.isEmpty && ds.all (fun c => c = '0' || c = '1') then
        some ((ds.foldl (fun n c => n * 2 + (c.toNat - '0'.toNat)) 0 : Nat) : ℚ)
      else none
    else jsDecimal t
  | '+' :: r => jsDecimal r
  | '-' :: r => (jsDecimal r).map Neg.neg
  | _ => jsDecimal t

/-- The single-quote character, written by code point to keep the source
free of quote-escape sequences. -/
def squote : Char := Char.ofNat 39

/-- Model of `parseValue`: the literals `true`/`false` become booleans, a
text accepted by `Number` (not `NaN`) becomes a number, a quoted string is
unquoted, anything else is the raw string. -/
def parseValue (rawValue : List Char) : AttributeValue :=
  if rawValue = "true".toList then .bool true
  else if rawValue = "false".toList then .bool false
  else
    match jsNumber rawValue with
    | some q => .num q
    | none =>
      match rawValue with
      | c :: _ =>
        if (c = '"' && rawValue.getLast? = some '"')
            || (c = squote && rawValue.getLast? = some squote) then
          .str (rawValue.drop 1).dropLast
        else .str rawValue
      | [] => .str rawValue

/-- One parsed condition of a query.  The source field `attribute` is a
Lean keyword, so it is called `attr` here. -/
structure QueryCondition where
  attr : List Char
  operator : ComparisonOperator
  value : AttributeValue
  negated : Bool
  weight : ℚ
deriving DecidableEq, Repr

/-- The `Invalid query condition: "..."` error text thrown by `parseToken`. -/
def invalidConditionMsg (t : List Char) : String :=
  "Invalid query condition: \"" ++ String.mk t ++ "\""

/-- The negation-prefix stage of `parseToken`: `conditionPart.startsWith('!')`
sets `negated` and strips/trims the remainder. -/
def negationSplit (conditionPart : List Char) : Bool × List Char :=
  match conditionPart with
  | '!' :: rest => (true, trim rest)
  | _ => (false, conditionPart)

/-- The final stage of `parseToken`: try the comparison form, then the
bare-identifier form, else throw `Invalid query condition`. -/
def parseConditionBody (conditionPart : List Char) (negated : Bool) (weight : ℚ)
    (trimmed : List Char) : Except String QueryCondition :=
  match comparisonSplit conditionPart with
  | some (attr, op, rawTrimmed) =>
    .ok ⟨attr, op, parseValue rawTrimmed, negated, weight⟩
  | none =>
    if isIdent conditionPart then
      .ok ⟨conditionPart, .eq, .bool true, negated, weight⟩
    else .error (invalidConditionMsg trimmed)

/-- Model of `parseToken`: strip an optional weight suffix (default weight
`totalConditions - position`), strip an optional `!` negation prefix, then
try the comparison form and finally the bare-identifier form. -/
def parseToken (token : List Char) (position totalConditions : Nat) :
    Except String QueryCondition :=
  let trimmed := trim token
  let (conditionPart, weight) :=
    match weightSplit trimmed with
    | some (p, d) => (trim p, (digitsToNat d : ℚ))
    | none => (trimmed, ((totalConditions - position : Nat) : ℚ))
  let (negated, conditionPart) := negationSplit conditionPart
  parseConditionBody conditionPart negated weight trimmed

/-- An alias map, `name → replacement query fragment` (JavaScript object
with string values; first binding wins on lookup). -/
abbrev Aliases := List (List Char × List Char)

/-- `aliases[k]`. -/
def aliasLookup (aliases : Aliases) (k : List Char) : Option (List Char) :=
  (aliases.find? (fun p => p.1 = k)).map (·.2)

/-- The per-token body of `expandAliases`: strip a weight suffix and a
leading `!`, look the remainder up in the alias map
(`if (aliases[lookupToken])` — an *empty* replacement string is falsy in
JavaScript, so it does not expand), wrap a negated replacement in `!(...)`
and re-append the weight suffix. -/
def expandToken (aliases : Aliases) (token : List Char) : List Char :=
  let (baseToken, weightSuffix) :=
    match weightSplit token with
    | some (p, d) => (trim p, ':' :: d)
    | none => (token, [])
  let (negated, lookupToken) :=
    match baseToken with
    | '!' :: rest => (true, rest)
    | _ => (false, baseToken)
  match aliasLookup aliases lookupToken with
  | some v =>
    if v.isEmpty then token
    else (if negated then '!' :: '(' :: (v ++ [')']) else v) ++ weightSuffix
  | none => token

/-- Model of `expandAliases`: split on commas, trim each token, expand each
token, re-join with `", "`. -/
def expandAliases (query : List Char) (aliases : Aliases) : List Char :=
  let tokens := (splitComma query).map trim
  joinWith (", ".toList) (tokens.map (expandToken aliases))

/-- A parsed query. -/
structure ParsedQuery where
  conditions : List QueryCondition
deriving DecidableEq, Repr

/-- The token list `parseQuery` works on: split the (already expanded) query
on commas, trim, drop blank tokens. -/
def tokenize (s : List Char) : List (List Char) :=
  ((splitComma s).map trim).filter (fun t => t.length > 0)

/-- `tokens.map((token, index) => parseToken(token, index, tokens.length))`:
tokens are parsed left to right and the first failure aborts the map. -/
def parseTokens (totalConditions : Nat) : Nat → List (List Char) → Except String (List QueryCondition)
  | _, [] => .ok []
  | i, t :: ts => do
    let c ← parseToken t i totalConditions
    let cs ← parseTokens totalConditions (i + 1) ts
    .ok (c :: cs)

/-- Model of `parseQuery`: expand aliases, tokenize, fail with `Empty query`
on zero tokens, otherwise parse every token with its position. -/
def parseQuery (query : List Char) (aliases : Aliases := []) : Except String ParsedQuery :=
  let expandedQuery := expandAliases query aliases
  let tokens := tokenize expandedQuery
  if tokens.isEmpty then .error "Empty query"
  else (parseTokens tokens.length 0 tokens).map ParsedQuery.mk

/-- A candidate's attribute map (JavaScript object; first binding wins). -/
abbrev ModelAttributes := List (List Char × AttributeValue)

/-- `attributes[name]`. -/
def lookupAttr (attributes : ModelAttributes) (k : List Char) : Option AttributeValue :=
  (attributes.find? (fun p => p.1 = k)).map (·.2)

/-- Model of `evaluateCondition`: a missing attribute gives the raw outcome
`false`; `=`/`!=` are strict (in)equality; the four ordering operators
succeed only when both sides are numbers and are `false` otherwise; the
`negated` flag is a final boolean flip (and therefore turns a missing
attribute into a satisfied condition). -/
def evaluateCondition (condition : QueryCondition) (attributes : ModelAttributes) : Bool :=
  match lookupAttr attributes condition.attr with
  | none => condition.negated
  | some attrValue =>
    let result :=
      match condition.operator with
      | .eq => decide (attrValue = condition.value)
      | .ne => decide (attrValue ≠ condition.value)
      | .gt =>
        match attrValue, condition.value with
        | .num a, .num b => decide (a > b)
        | _, _ => false
      | .ge =>
        match attrValue, condition.value with
        | .num a, .num b => decide (a ≥ b)
        | _, _ => false
      | .lt =>
        match attrValue, condition.value with
        | .num a, .num b => decide (a < b)
        | _, _ => false
      | .le =>
        match attrValue, condition.value with
        | .num a, .num b => decide (a ≤ b)
        | _, _ => false
    if condition.negated then !result else result

/-- The result of matching one candidate against a parsed query.  The
source field `matches` is a Lean keyword, so it is called `matches'` here. -/
structure MatchResult where
  matches' : Bool
  score : ℚ
  maxScore : ℚ
  exactMatch : Bool
  matchedAttributes : List (List Char)
  missingAttributes : List (List Char)
deriving DecidableEq, Repr

/-- The accumulating loop of `matchModel`, written as structural recursion:
`(score, maxScore, matchedAttributes, missingAttributes)` after processing
the given conditions (the source's in-order `push` appends produce the same
lists as this prepend-under-recursion form). -/
def matchGo (attributes : ModelAttributes) :
    List QueryCondition → ℚ × ℚ × List (List Char) × List (List Char)
  | [] => (0, 0, [], [])
  | condition :: rest =>
    let (score, maxScore, matched, missing) := matchGo attributes rest
    if evaluateCondition condition attributes then
      (condition.weight + score, condition.weight + maxScore, condition.attr :: matched, missing)
    else
      (score, condition.weight + maxScore, matched, condition.attr :: missing)

/-- Model of `matchModel`. -/
def matchModel (attributes : ModelAttributes) (query : ParsedQuery) : MatchResult :=
  let (score, maxScore, matched, missing) := matchGo attributes query.conditions
  { matches' := decide (score > 0)
    score := score
    maxScore := maxScore
    exactMatch := decide (score = maxScore)
    matchedAttributes := matched
    missingAttributes := missing }

/-- Model of `normalizeScore`. -/
def normalizeScore (result : MatchResult) : ℚ :=
  if result.maxScore = 0 then 0 else result.score / result.maxScore

/-- A JavaScript `Error` as far as the classifier observes it: message plus
the optional `status`, `statusCode`, `code` and `cause.message` fields. -/
structure JsError where
  message : List Char
  status : Option Int := none
  statusCode : Option Int := none
  code : Option (List Char) := none
  causeMessage : Option (List Char) := none
deriving DecidableEq, Repr

/-- Model of `getErrorText`: the searchable text, `parts.join(' ')`. -/
def getErrorText (e : JsError) : List Char :=
  let parts := [e.message]
    ++ (e.status.map (fun i => (toString i).toList)).toList
    ++ (e.statusCode.map (fun i => (toString i).toList)).toList
    ++ e.code.toList
    ++ e.causeMessage.toList
  joinWith [' '] parts

/-- A character the regex `.` matches (anything but a line terminator). -/
def dotChar (c : Char) : Bool :=
  !(c = '\n' || c = '\r' || c = '\u2028' || c = '\u2029')

/-- Match a pattern of literal segments separated by `.?` gaps at the start
of `t`: each segment must follow the previous one either immediately or
after exactly one `.`-matchable character. -/
def matchSeq : List (List Char) → List Char → Bool
  | [], _ => true
  | [s], t => s.isPrefixOf t
  | s :: ss, t =>
    s.isPrefixOf t &&
      (let r := t.drop s.length
       matchSeq ss r ||
        (match r with
         | c :: r' => dotChar c && matchSeq ss r'
         | [] => false))

/-- `RegExp.prototype.test` for a `.?`-gapped pattern: the pattern may match
at any position of the text. -/
def containsSeq (segs : List (List Char)) : List Char → Bool
  | [] => matchSeq segs []
  | t@(_ :: rest) => matchSeq segs t || containsSeq segs rest

/-- Build a `.?`-gapped pattern from its literal segments. -/
def pat (segs : List String) : List (List Char) :=
  segs.map String.toList

/-- `RATE_LIMIT_PATTERNS`. -/
def RATE_LIMIT_PATTERNS : List (List (List Char)) :=
  [pat ["rate", "limit"], pat ["too", "many", "requests"], pat ["quota", "exceeded"],
   pat ["capacity"], pat ["overloaded"], pat ["429"]]

/-- `AUTH_PATTERNS`. -/
def AUTH_PATTERNS : List (List (List Char)) :=
  [pat ["unauthorized"], pat ["invalid", "api", "key"], pat ["authentication"],
   pat ["api", "key", "invalid"], pat ["forbidden"], pat ["401"], pat ["403"]]

/-- `TRANSIENT_PATTERNS`. -/
def TRANSIENT_PATTERNS : List (List (List Char)) :=
  [pat ["timeout"], pat ["timed", "out"], pat ["network"], pat ["connection"],
   pat ["econnrefused"], pat ["econnreset"], pat ["enotfound"], pat ["socket"],
   pat ["500"], pat ["502"], pat ["503"], pat ["504"],
   pat ["service", "unavailable"], pat ["internal", "server", "error"], pat ["temporarily"]]

/-- `INVALID_REQUEST_PATTERNS`. -/
def INVALID_REQUEST_PATTERNS : List (List (List Char)) :=
  [pat ["invalid", "request"], pat ["bad", "request"], pat ["validation"],
   pat ["malformed"], pat ["400"], pat ["context", "length"], pat ["token", "limit"],
   pat ["max", "tokens"], pat ["content", "filter"], pat ["safety"]]

/-- Model of `matchesPatterns`: all the source patterns are either
case-insensitive or all-digit, so testing is done on the lowercased text
against lowercase literals. -/
def matchesPatterns (text : List Char) (patterns : List (List (List Char))) : Bool :=
  patterns.any (fun p => containsSeq p (text.map Char.toLower))

/-- The five error categories. -/
inductive ErrorCategory
  | RATE_LIMIT | AUTH | TRANSIENT | INVALID_REQUEST | UNKNOWN
deriving DecidableEq, Repr

/-- A classified error. -/
structure ClassifiedError where
  category : ErrorCategory
  original : JsError
  message : List Char
  shouldRetry : Bool
  shouldFallback : Bool
deriving DecidableEq, Repr

/-- Model of `classifyError`: the four pattern sets are checked in
precedence order and the first match decides the category and the
retry/fallback flags; no match gives `UNKNOWN` with the optimistic
`shouldRetry = true, shouldFallback = true` default. -/
def classifyError (error : JsError) : ClassifiedError :=
  let errorText := getErrorText error
  if matchesPatterns errorText RATE_LIMIT_PATTERNS then
    ⟨.RATE_LIMIT, error, "Rate limit: ".toList ++ error.message, false, true⟩
  else if matchesPatterns errorText AUTH_PATTERNS then
    ⟨.AUTH, error, "Authentication error: ".toList ++ error.message, false, true⟩
  else if matchesPatterns errorText INVALID_REQUEST_PATTERNS then
    ⟨.INVALID_REQUEST, error, "Invalid request: ".toList ++ error.message, false, false⟩
  else if matchesPatterns errorText TRANSIENT_PATTERNS then
    ⟨.TRANSIENT, error, "Transient error: ".toList ++ error.message, true, true⟩
  else
    ⟨.UNKNOWN, error, error.message, true, true⟩

/-- One model's configuration (the fields the core reads). -/
structure ModelConfig where
  provider : List Char
  model_id : List Char
  api_key : Option (List Char) := none
  base_url : Option (List Char) := none
  enabled : Bool := true
  attributes : ModelAttributes := []
deriving DecidableEq, Repr

/-- One `AttemptInfo` log entry.  `durationMs` is wall-clock time, which the
model does not measure; it is recorded as `0`. -/
structure AttemptInfo where
  modelName : List Char
  provider : List Char
  success : Bool
  error : Option JsError := none
  durationMs : ℚ := 0
deriving DecidableEq, Repr

/-- The executor options after `resolveOptions`: `retryDelay` and `timeout`
only shape wall-clock behaviour (backoff sleeps and the timeout wrapper) and
never the control flow the model observes, so they are carried unused. -/
structure ExecOptions where
  fallbackCount : Nat := 3
  maxRetries : Nat := 2
  retryDelay : ℚ := 1000
  timeout : ℚ := 60000
deriving DecidableEq, Repr

/-- A ranked candidate as the executor sees it.  The caller-supplied
operation `fn` is modelled per candidate as a function from the 0-based
attempt index within that candidate to the call's outcome (the opaque
`LanguageModel` handle is absorbed into this function). -/
structure ModelCandidate (T : Type) where
  modelName : List Char
  config : ModelConfig
  op : Nat → Except JsError T

/-- The value `executeWithFallbacks` resolves with. -/
structure ExecutionResult (T : Type) where
  result : T
  modelUsed : List Char
  modelConfig : ModelConfig
  attempts : List AttemptInfo
  fallbacksUsed : Nat
deriving Repr

/-- The retry loop of `executeWithRetry` (`for attempt = 0..maxRetries`):
record an entry per physical call; stop early on success or on a
non-retryable classification; the backoff sleep has no observable effect.
`remaining` counts the retries still allowed (`maxRetries - attempt`, so
the loop guard `attempt < maxRetries` is `remaining > 0`), which makes the
recursion structural.  Returns the outcome together with the final value of
the local `attempts` array (which the source returns only on success and
discards on throw). -/
def retryGo {T : Type} (op : Nat → Except JsError T) (modelName provider : List Char) :
    (attempt : Nat) → (acc : List AttemptInfo) → (remaining : Nat) →
      Except JsError T × List AttemptInfo
  | attempt, acc, remaining =>
    match op attempt with
    | .ok v => (.ok v, acc ++ [{ modelName, provider, success := true }])
    | .error e =>
      let acc' := acc ++ [{ modelName, provider, success := false, error := some e }]
      if (classifyError e).shouldRetry = false then (.error e, acc')
      else
        match remaining with
        | 0 => (.error e, acc')
        | r + 1 => retryGo op modelName provider (attempt + 1) acc' r
termination_by structural attempt acc remaining => remaining

/-- Model of `executeWithRetry`. -/
def executeWithRetry {T : Type} (op : Nat → Except JsError T) (modelName provider : List Char)
    (maxRetries : Nat) : Except JsError T × List AttemptInfo :=
  retryGo op modelName provider 0 [] maxRetries

/-- What `executeWithFallbacks` rejects with: either a plain error rethrown
unchanged (timeout, non-fallback classification, no candidates), or an
`AllModelsFailedError` carrying each failed candidate's name and terminal
error. -/
inductive ExecError
  | bare (e : JsError)
  | allFailed (failed : List (List Char × JsError))
deriving DecidableEq, Repr

/-- The `Error('No models available to try')` thrown on an empty list. -/
def noModelsError : JsError := { message := "No models available to try".toList }

/-- The candidate loop of `executeWithFallbacks`.  `i` is the loop index
(`fallbacksUsed` on success), `failed` the accumulated `failedModels`.  The
second component of the result observes the concatenation of the
per-candidate `attempts` arrays — the physical invocation log.  Note that
the source pushes a candidate's array onto `allAttempts` only on that
candidate's success, so `ExecutionResult.attempts` holds just the
succeeding candidate's entries. -/
def fallbackGo {T : Type} (opts : ExecOptions) (i : Nat) (failed : List (List Char × JsError)) :
    List (ModelCandidate T) → Except ExecError (ExecutionResult T) × List AttemptInfo
  | [] => (.error (.allFailed failed), [])
  | c :: rest =>
    let (res, catt) := executeWithRetry c.op c.modelName c.config.provider opts.maxRetries
    match res with
    | .ok v => (.ok ⟨v, c.modelName, c.config, catt, i⟩, catt)
    | .error e =>
      if (classifyError e).shouldFallback = false then (.error (.bare e), catt)
      else
        let (r, phys) := fallbackGo opts (i + 1) (failed ++ [(c.modelName, e)]) rest
        (r, catt ++ phys)

/-- Model of `executeWithFallbacks`: truncate to `fallbackCount`, fail fast
when empty, then run the candidate loop. -/
def executeWithFallbacks {T : Type} (candidates : List (ModelCandidate T))
    (opts : ExecOptions := {}) : Except ExecError (ExecutionResult T) × List AttemptInfo :=
  let modelsToTry := candidates.take opts.fallbackCount
  if modelsToTry.isEmpty then (.error (.bare noModelsError), [])
  else fallbackGo opts 0 [] modelsToTry

/-- A candidate as the streaming engine (`stream` / `streamObject`) sees it:
the chunks its underlying stream produces before either completing with a
final value or failing (a mid-stream failure is a non-empty `chunks` list
with an `error` outcome; a setup failure has `chunks = []`). -/
structure StreamCandidate (T : Type) where
  modelName : List Char
  config : ModelConfig
  chunks : List (List Char)
  outcome : Except JsError T
deriving Repr

/-- One yielded chunk, tagged with the producing model's name. -/
structure StreamChunk where
  text : List Char
  modelName : List Char
deriving DecidableEq, Repr

/-- The candidate loop of the streaming generator: each candidate is tried
exactly once (the loop body contains no retry loop); its chunks are yielded
before its outcome is known; one attempt entry is pushed per candidate; a
failure with a fallback-eligible classification moves to the next candidate
with the already-yielded chunks left emitted. -/
def streamGo {T : Type} (i : Nat) (failed : List (List Char × JsError))
    (acc : List AttemptInfo) :
    List (StreamCandidate T) →
      List StreamChunk × Except ExecError (ExecutionResult T) × List AttemptInfo
  | [] => ([], .error (.allFailed failed), acc)
  | c :: rest =>
    let yielded := c.chunks.map (fun t => StreamChunk.mk t c.modelName)
    match c.outcome with
    | .ok v =>
      let acc' := acc ++ [{ modelName := c.modelName, provider := c.config.provider,
                            success := true : AttemptInfo }]
      (yielded, .ok ⟨v, c.modelName, c.config, acc', i⟩, acc')
    | .error e =>
      let acc' := acc ++ [{ modelName := c.modelName, provider := c.config.provider,
                            success := false, error := some e : AttemptInfo }]
      let failed' := failed ++ [(c.modelName, e)]
      if (classifyError e).shouldFallback = false then (yielded, .error (.bare e), acc')
      else
        let (ks, r, att) := streamGo (i + 1) failed' acc' rest
        (yielded ++ ks, r, att)

/-- Model of the streaming engine `stream` (and the structurally identical
`streamObject`): the emitted chunk sequence, the deferred result, and the
shared `attempts` log.  The `No models available` check precedes the loop. -/
def streamRun {T : Type} (candidates : List (StreamCandidate T)) :
    List StreamChunk × Except ExecError (ExecutionResult T) × List AttemptInfo :=
  if candidates.isEmpty then
    ([], .error (.bare { message := "No models available".toList }), [])
  else streamGo 0 [] [] candidates

/-- The materialized configuration: aliases plus the named models
(`Object.entries` order). -/
structure Config where
  aliases : Aliases := []
  models : List (List Char × ModelConfig) := []
deriving Repr

/-- Model of `getEnabledModels`. -/
def getEnabledModels (config : Config) : List (List Char × ModelConfig) :=
  config.models.filter (fun p => p.2.enabled)

/-- One ranked model. -/
structure RankedModel where
  name : List Char
  config : ModelConfig
  matchResult : MatchResult
  normalizedScore : ℚ
deriving DecidableEq, Repr

/-- Stable insertion of `a` into a list sorted by non-increasing `key`:
`a` goes after every element whose key is `≥ key a`. -/
def insertDescBy {α : Type} (key : α → ℚ) (a : α) : List α → List α
  | [] => [a]
  | b :: bs => if key b < key a then a :: b :: bs else b :: insertDescBy key a bs

/-- Model of `ranked.sort((a, b) => b.normalizedScore - a.normalizedScore)`.
`Array.prototype.sort` is specified to be stable, and a stable descending
sort is uniquely determined (sorted by key, ties in input order); it is
realized here by stable insertion, processing the input left to right. -/
def stableSortDesc {α : Type} (key : α → ℚ) (l : List α) : List α :=
  l.foldl (fun acc a => insertDescBy key a acc) []

/-- Model of `rankModels`: parse the query with the config's aliases, fail
when no enabled model exists, score every enabled model, and stably sort by
descending normalized score. -/
def rankModels (query : List Char) (config : Config) : Except String (List RankedModel) :=
  match parseQuery query config.aliases with
  | .error m => .error m
  | .ok parsedQuery =>
    let enabledModels := getEnabledModels config
    if enabledModels.isEmpty then .error "No models configured or all models are disabled"
    else
      let ranked := enabledModels.map (fun p =>
        let matchResult := matchModel p.2.attributes parsedQuery
        RankedModel.mk p.1 p.2 matchResult (normalizeScore matchResult))
      .ok (stableSortDesc RankedModel.normalizedScore ranked)

/-- `rankModels` with each scored model tagged by its position in the
enabled-model enumeration, to make the stability statement expressible:
the same pipeline, sorting the enumerated list by the same key. -/
def rankModelsEnum (query : List Char) (config : Config) :
    Except String (List (Nat × RankedModel)) :=
  match parseQuery query config.aliases with
  | .error m => .error m
  | .ok parsedQuery =>
    let enabledModels := getEnabledModels config
    if enabledModels.isEmpty then .error "No models configured or all models are disabled"
    else
      let ranked := enabledModels.map (fun p =>
        let matchResult := matchModel p.2.attributes parsedQuery
        RankedModel.mk p.1 p.2 matchResult (normalizeScore matchResult))
      .ok (stableSortDesc (fun p => p.2.normalizedScore) ranked.enum)

/-- Model of the truncation in `selectModels` / `selectModelsDetailed`:
`ranked.slice(0, options.count ?? ranked.length)`. -/
def selectRanked (query : List Char) (config : Config) (count : Option Nat) :
    Except String (List RankedModel) :=
  (rankModels query config).map (fun ranked => ranked.take (count.getD ranked.length))

/-!
## Theorems
-/

/-- Closed form of the `matchModel` accumulation loop. -/
theorem matchGo_eq (attributes : ModelAttributes) (cs : List QueryCondition) :
    matchGo attributes cs =
      (((cs.filter (fun c => evaluateCondition c attributes)).map QueryCondition.weight).sum,
       (cs.map QueryCondition.weight).sum,
       (cs.filter (fun c => evaluateCondition c attributes)).map QueryCondition.attr,
       (cs.filter (fun c => !evaluateCondition c attributes)).map QueryCondition.attr) := by
  induction cs with
  | nil => simp [matchGo]
  | cons c cs ih =>
    by_cases h : evaluateCondition c attributes <;>
      simp [matchGo, ih, h, List.filter_cons]

/-- The attribute map and the query of the worked example
`"functions:10, local:1"` against `{functions: true, local: false}`. -/
def exampleAttributes : ModelAttributes :=
  [("functions".toList, .bool true), ("local".toList, .bool false)]

/-- The first condition of the worked example query. -/
def exampleCondFunctions : QueryCondition :=
  ⟨"functions".toList, .eq, .bool true, false, 10⟩

/-- The second condition of the worked example query. -/
def exampleCondLocal : QueryCondition :=
  ⟨"local".toList, .eq, .bool true, false, 1⟩

/-- The parsed form of the query `"!reasoning"`. -/
def negCondReasoning : QueryCondition :=
  ⟨"reasoning".toList, .eq, .bool true, true, 1⟩

/-- The parsed form of the query `"!local"`. -/
def negCondLocal : QueryCondition :=
  ⟨"local".toList, .eq, .bool true, true, 1⟩

/-- The attribute map `{local: true, functions: false}`. -/
def exampleAttributesLocal : ModelAttributes :=
  [("local".toList, .bool true), ("functions".toList, .bool false)]

/-- C3.  `matchModel` postcondition: the score is the sum of the weights of
the satisfied conditions, `maxScore` the sum of all condition weights,
`exactMatch` holds iff `score = maxScore`, `matches` holds iff `score > 0`;
and the query `"functions:10, local:1"` against
`{functions: true, local: false}` yields `score = 10`, `maxScore = 11` and
`normalizeScore = 10/11`. -/
theorem c3_matchModel_postcondition :
    (∀ (attributes : ModelAttributes) (query : ParsedQuery),
      (matchModel attributes query).score =
        ((query.conditions.filter (fun c => evaluateCondition c attributes)).map
          QueryCondition.weight).sum ∧
      (matchModel attributes query).maxScore =
        (query.conditions.map QueryCondition.weight).sum ∧
      ((matchModel attributes query).exactMatch = true ↔
        (matchModel attributes query).score = (matchModel attributes query).maxScore) ∧
      ((matchModel attributes query).matches' = true ↔
        (matchModel attributes query).score > 0)) ∧
    (parseQuery "functions:10, local:1".toList).map (fun q =>
        let r := matchModel exampleAttributes q
        (r.score, r.maxScore, normalizeScore r)) = .ok (10, 11, 10 / 11) := by
  constructor
  · intro attributes query
    simp [matchModel, matchGo_eq]
  · have hp : parseQuery "functions:10, local:1".toList =
        .ok ⟨[exampleCondFunctions, exampleCondLocal]⟩ := rfl
    have h1 : evaluateCondition exampleCondFunctions exampleAttributes = true := rfl
    have h2 : evaluateCondition exampleCondLocal exampleAttributes = false := rfl
    rw [hp]
    simp [Except.map, matchModel, matchGo, h1, h2, normalizeScore]
    norm_num [exampleCondFunctions, exampleCondLocal]

/-- The raw (pre-negation) outcome of a condition as §4.3 of the
specification words it: a missing attribute has raw outcome `false`;
otherwise the operator is evaluated against the stored value and the
target value, the ordering operators succeeding only on two numbers. -/
def conditionRawOutcome (condition : QueryCondition) (attributes : ModelAttributes) : Bool :=
  match lookupAttr attributes condition.attr with
  | none => false
  | some attrValue =>
    match condition.operator with
    | .eq => decide (attrValue = condition.value)
    | .ne => decide (attrValue ≠ condition.value)
    | .gt =>
      match attrValue, condition.value with
      | .num a, .num b => decide (a > b)
      | _, _ => false
    | .ge =>
      match attrValue, condition.value with
      | .num a, .num b => decide (a ≥ b)
      | _, _ => false
    | .lt =>
      match attrValue, condition.value with
      | .num a, .num b => decide (a < b)
      | _, _ => false
    | .le =>
      match attrValue, condition.value with
      | .num a, .num b => decide (a ≤ b)
      | _, _ => false

/-- C5.  Per-condition evaluation semantics: a condition on a missing
attribute evaluates to its `negated` flag; in general `evaluateCondition`
is the raw operator outcome with `negated` applied as a final boolean
flip; an ordering operator on a non-numeric pair has raw outcome `false`
(never an error — the function is total by construction); and the two
worked examples: `{}` with `!reasoning` is an exact match, while
`{local: true, functions: false}` with `!local` does not match. -/
theorem c5_evaluateCondition_semantics :
    (∀ (condition : QueryCondition) (attributes : ModelAttributes),
      lookupAttr attributes condition.attr = none →
        evaluateCondition condition attributes = condition.negated) ∧
    (∀ (condition : QueryCondition) (attributes : ModelAttributes),
      evaluateCondition condition attributes =
        Bool.xor condition.negated (conditionRawOutcome condition attributes)) ∧
    (∀ (condition : QueryCondition) (attributes : ModelAttributes) (v : AttributeValue),
      lookupAttr attributes condition.attr = some v →
      (condition.operator = .gt ∨ condition.operator = .ge ∨
        condition.operator = .lt ∨ condition.operator = .le) →
      ¬(∃ a b, v = AttributeValue.num a ∧ condition.value = AttributeValue.num b) →
        conditionRawOutcome condition attributes = false) ∧
    (parseQuery "!reasoning".toList).map (fun q =>
        (matchModel [] q).exactMatch) = .ok true ∧
    (parseQuery "!local".toList).map (fun q =>
        let r := matchModel exampleAttributesLocal q
        (r.matches', r.exactMatch)) = .ok (false, false) := by
  refine ⟨?_, ?_, ?_, ?_, ?_⟩
  · intro condition attributes h
    simp [evaluateCondition, h]
  · intro condition attributes
    unfold evaluateCondition conditionRawOutcome
    cases lookupAttr attributes condition.attr with
    | none => cases condition.negated <;> simp
    | some v => cases condition.negated <;> simp [Bool.xor_comm]
  · intro condition attributes v hv hop hnum
    unfold conditionRawOutcome
    rw [hv]
    rcases hop with h | h | h | h <;> rw [h] <;>
      (cases hva : v <;> cases hvb : condition.value <;> simp_all)
  · have hp : parseQuery "!reasoning".toList = .ok ⟨[negCondReasoning]⟩ := rfl
    have h : evaluateCondition negCondReasoning [] = true := rfl
    rw [hp]
    simp [Except.map, matchModel, matchGo, h]
  · have hp : parseQuery "!local".toList = .ok ⟨[negCondLocal]⟩ := rfl
    have h : evaluateCondition negCondLocal exampleAttributesLocal = false := rfl
    rw [hp]
    simp [Except.map, matchModel, matchGo, h]
    norm_num [negCondLocal]

/-- An error message (from the repository's own test suite) that matches
none of the four pattern sets. -/
def unknownExampleError : JsError := { message := "Something unexpected happened".toList }

/-- C6.  Classifier totality and flag policy: `classifyError` always yields
one of the five categories, `shouldRetry` holds exactly for `TRANSIENT` and
`UNKNOWN`, `shouldFallback` fails exactly for `INVALID_REQUEST`; an error
matching no pattern set is `UNKNOWN` with both flags true; and the two
worked examples `"Rate limit exceeded"` and `"Bad request (400)"`.
(Totality itself is structural: the model is a total function.) -/
theorem c6_classifier_totality_policy :
    (∀ e : JsError,
      ((classifyError e).category = .RATE_LIMIT ∨ (classifyError e).category = .AUTH ∨
        (classifyError e).category = .TRANSIENT ∨ (classifyError e).category = .INVALID_REQUEST ∨
        (classifyError e).category = .UNKNOWN) ∧
      ((classifyError e).shouldRetry = true ↔
        ((classifyError e).category = .TRANSIENT ∨ (classifyError e).category = .UNKNOWN)) ∧
      ((classifyError e).shouldFallback = false ↔
        (classifyError e).category = .INVALID_REQUEST) ∧
      (matchesPatterns (getErrorText e) RATE_LIMIT_PATTERNS = false →
        matchesPatterns (getErrorText e) AUTH_PATTERNS = false →
        matchesPatterns (getErrorText e) INVALID_REQUEST_PATTERNS = false →
        matchesPatterns (getErrorText e) TRANSIENT_PATTERNS = false →
        (classifyError e).category = .UNKNOWN ∧ (classifyError e).shouldRetry = true ∧
          (classifyError e).shouldFallback = true)) ∧
    ((classifyError { message := "Rate limit exceeded".toList }).category = .RATE_LIMIT ∧
      (classifyError { message := "Rate limit exceeded".toList }).shouldRetry = false ∧
      (classifyError { message := "Rate limit exceeded".toList }).shouldFallback = true) ∧
    ((classifyError { message := "Bad request (400)".toList }).category = .INVALID_REQUEST ∧
      (classifyError { message := "Bad request (400)".toList }).shouldFallback = false) := by
  refine ⟨?_, by decide, by decide⟩
  intro e
  simp only [classifyError]
  split_ifs with h1 h2 h3 h4 <;> simp_all

/-- Witness for C6: the message `"Something unexpected happened"` matches
no pattern set, and the theorem then classifies it `UNKNOWN`. -/
theorem c6_classifier_totality_policy_witness :
    matchesPatterns (getErrorText unknownExampleError) RATE_LIMIT_PATTERNS = false ∧
    matchesPatterns (getErrorText unknownExampleError) AUTH_PATTERNS = false ∧
    matchesPatterns (getErrorText unknownExampleError) INVALID_REQUEST_PATTERNS = false ∧
    matchesPatterns (getErrorText unknownExampleError) TRANSIENT_PATTERNS = false ∧
    (classifyError unknownExampleError).category = .UNKNOWN ∧
    (classifyError unknownExampleError).shouldRetry = true ∧
    (classifyError unknownExampleError).shouldFallback = true :=
  ⟨by decide, by decide, by decide, by decide,
    ((c6_classifier_totality_policy.1 unknownExampleError).2.2.2
      (by decide) (by decide) (by decide) (by decide))⟩

/-!
### String lemmas for the tokenization pipeline
-/

theorem dropWhile_idem (p : Char → Bool) (l : List Char) :
    (l.dropWhile p).dropWhile p = l.dropWhile p := by
  induction l with
  | nil => rfl
  | cons c cs ih =>
    cases h : p c
    · simp [List.dropWhile, h]
    · simp [List.dropWhile, h, ih]

theorem trimLeft_idem (s : List Char) : trimLeft (trimLeft s) = trimLeft s :=
  dropWhile_idem jsWhitespace s

theorem trimRight_idem (s : List Char) : trimRight (trimRight s) = trimRight s := by
  simp [trimRight, dropWhile_idem]

theorem trimLeft_ws_cons {c : Char} (h : jsWhitespace c = true) (s : List Char) :
    trimLeft (c :: s) = trimLeft s := by
  simp [trimLeft, List.dropWhile, h]

theorem trimLeft_cons {c : Char} (h : jsWhitespace c = false) (s : List Char) :
    trimLeft (c :: s) = c :: s := by
  simp [trimLeft, List.dropWhile, h]

theorem trimRight_cons {c : Char} (h : jsWhitespace c = false) (s : List Char) :
    trimRight (c :: s) = c :: trimRight s := by
  unfold trimRight
  rw [List.reverse_cons, List.dropWhile_append]
  rcases hd : List.dropWhile jsWhitespace s.reverse with _ | ⟨x, xs⟩
  · simp [List.dropWhile, h]
  · simp

theorem trim_ws_cons {c : Char} (h : jsWhitespace c = true) (s : List Char) :
    trim (c :: s) = trim s := by
  simp [trim, trimLeft_ws_cons h]

theorem trim_cons_eq_trimRight {c : Char} (h : jsWhitespace c = false) (s : List Char) :
    trim (c :: s) = c :: trimRight s := by
  simp [trim, trimLeft_cons h, trimRight_cons h]

theorem trim_idem (s : List Char) : trim (trim s) = trim s := by
  unfold trim
  induction s with
  | nil => rfl
  | cons c cs ih =>
    cases h : jsWhitespace c
    · rw [trimLeft_cons h, trimRight_cons h, trimLeft_cons h, trimRight_cons h]
      congr 1
      simpa [trimRight] using dropWhile_idem jsWhitespace cs.reverse
    · rw [trimLeft_ws_cons h]; exact ih

theorem mem_trimLeft {a : Char} {s : List Char} (h : a ∈ trimLeft s) : a ∈ s := by
  unfold trimLeft at h
  exact (List.dropWhile_sublist jsWhitespace).subset h

theorem mem_trimRight {a : Char} {s : List Char} (h : a ∈ trimRight s) : a ∈ s := by
  unfold trimRight at h
  rw [List.mem_reverse] at h
  simpa using (List.dropWhile_sublist jsWhitespace).subset h

theorem mem_trim {a : Char} {s : List Char} (h : a ∈ trim s) : a ∈ s :=
  mem_trimLeft (mem_trimRight h)

theorem splitComma_cons (c : Char) (cs : List Char) {u : List Char} {us : List (List Char)}
    (hs : splitComma cs = u :: us) :
    splitComma (c :: cs) = if c = ',' then [] :: u :: us else (c :: u) :: us := by
  simp only [splitComma, hs]

theorem splitComma_ne_nil (l : List Char) : splitComma l ≠ [] := by
  cases l with
  | nil => simp [splitComma]
  | cons c cs =>
    simp only [splitComma]
    rcases h : splitComma cs with _ | ⟨t, ts⟩ <;> by_cases hc : c = ',' <;> simp [hc]

theorem mem_splitComma_no_comma : ∀ {l t : List Char}, t ∈ splitComma l → ',' ∉ t := by
  intro l
  induction l with
  | nil =>
    intro t h
    simp [splitComma] at h
    simp [h]
  | cons c cs ih =>
    intro t h
    rcases hs : splitComma cs with _ | ⟨u, us⟩
    · exact absurd hs (splitComma_ne_nil cs)
    · rw [splitComma_cons c cs hs] at h
      by_cases hc : c = ','
      · rw [if_pos hc] at h
        rcases List.mem_cons.mp h with h | h
        · simp [h]
        · exact ih (hs ▸ h)
      · rw [if_neg hc] at h
        rcases List.mem_cons.mp h with h | h
        · subst h
          intro hm
          rcases List.mem_cons.mp hm with hm | hm
          · exact hc hm.symm
          · exact ih (hs ▸ List.mem_cons_self u us) hm
        · exact ih (hs ▸ List.mem_cons_of_mem u h)

theorem splitComma_of_no_comma : ∀ {l : List Char}, ',' ∉ l → splitComma l = [l] := by
  intro l
  induction l with
  | nil => intro _; rfl
  | cons c cs ih =>
    intro h
    have hc : ¬(c = ',') := fun hh => h (hh ▸ List.mem_cons_self c cs)
    have hcs : ',' ∉ cs := fun hh => h (List.mem_cons_of_mem c hh)
    rw [splitComma_cons c cs (ih hcs), if_neg hc]

theorem splitComma_append {xs ys : List Char} (h : ',' ∉ xs) :
    splitComma (xs ++ ',' :: ys) = xs :: splitComma ys := by
  induction xs with
  | nil =>
    simp only [List.nil_append, splitComma]
    rcases hs : splitComma ys with _ | ⟨t, ts⟩
    · exact absurd hs (splitComma_ne_nil ys)
    · simp
  | cons c cs ih =>
    have hc : ¬(c = ',') := fun hh => h (hh ▸ List.mem_cons_self c cs)
    have hcs : ',' ∉ cs := fun hh => h (List.mem_cons_of_mem c hh)
    have harec := ih hcs
    rcases hys : splitComma ys with _ | ⟨v, vs⟩
    · exact absurd hys (splitComma_ne_nil ys)
    · rw [hys] at harec
      rw [List.cons_append, splitComma_cons c (cs ++ ',' :: ys) harec, if_neg hc]

theorem expandToken_nil (token : List Char) : expandToken [] token = token := by
  unfold expandToken
  split <;> split <;> simp [aliasLookup]

theorem expandAliases_nil (q : List Char) :
    expandAliases q [] = joinWith (", ".toList) ((splitComma q).map trim) := by
  unfold expandAliases
  dsimp only
  congr 1
  rw [show ((splitComma q).map trim).map (expandToken []) = ((splitComma q).map trim).map id from
    List.map_congr_left (fun t _ => expandToken_nil t), List.map_id]

theorem splitComma_trim_ws_cons {c : Char} (hw : jsWhitespace c = true) (hc : ¬(c = ','))
    (z : List Char) : (splitComma (c :: z)).map trim = (splitComma z).map trim := by
  rcases hz : splitComma z with _ | ⟨t, ts⟩
  · exact absurd hz (splitComma_ne_nil z)
  · rw [splitComma_cons c z hz, if_neg hc]
    simp [trim_ws_cons hw, hz]


theorem tokenize_ws_cons {c : Char} (hw : jsWhitespace c = true) (hc : ¬(c = ','))
    (z : List Char) : tokenize (c :: z) = tokenize z := by
  unfold tokenize
  rw [splitComma_trim_ws_cons hw hc z]

theorem tokenize_append_comma {p rest : List Char} (hp : ',' ∉ p) :
    tokenize (p ++ ',' :: rest) =
      (if (trim p).length > 0 then [trim p] else []) ++ tokenize rest := by
  unfold tokenize
  rw [splitComma_append hp]
  simp only [List.map_cons, List.filter_cons]
  cases h : decide ((trim p).length > 0) <;> simp_all

theorem tokenize_joinWith : ∀ (pieces : List (List Char)),
    (∀ p ∈ pieces, ',' ∉ p) → (∀ p ∈ pieces, trim p = p) →
    tokenize (joinWith (", ".toList) pieces) = pieces.filter (fun t => t.length > 0)
  | [], _, _ => rfl
  | [p], h1, h2 => by
    have hp := h1 p (List.mem_cons_self p [])
    have ht := h2 p (List.mem_cons_self p [])
    simp only [joinWith, tokenize, splitComma_of_no_comma hp, List.map_cons, List.map_nil,
      ht, List.filter_cons, List.filter_nil]
  | p :: q :: qs, h1, h2 => by
    have hp := h1 p (List.mem_cons_self p (q :: qs))
    have ht := h2 p (List.mem_cons_self p (q :: qs))
    have hrest := tokenize_joinWith (q :: qs)
      (fun x hx => h1 x (List.mem_cons_of_mem p hx))
      (fun x hx => h2 x (List.mem_cons_of_mem p hx))
    have hjoin : joinWith (", ".toList) (p :: q :: qs) =
        p ++ ',' :: (' ' :: joinWith (", ".toList) (q :: qs)) := by
      show p ++ (", ".toList) ++ joinWith (", ".toList) (q :: qs) = _
      simp
    rw [hjoin, tokenize_append_comma hp,
      tokenize_ws_cons (by decide) (by decide), hrest, ht, List.filter_cons]
    cases h : decide (p.length > 0) <;> simp_all [List.filter_cons]

/-- With the default empty alias map, expansion only normalizes whitespace
around commas, so `parseQuery` works on exactly the query's own tokens. -/
theorem tokenize_expandAliases_nil (q : List Char) :
    tokenize (expandAliases q []) = tokenize q := by
  rw [expandAliases_nil,
    tokenize_joinWith ((splitComma q).map trim)
      (fun p hp => by
        rcases List.mem_map.mp hp with ⟨x, hx, rfl⟩
        exact fun hm => mem_splitComma_no_comma hx (mem_trim hm))
      (fun p hp => by
        rcases List.mem_map.mp hp with ⟨x, hx, rfl⟩
        exact trim_idem x)]
  rfl

theorem tokenize_mem_trim {t s : List Char} (h : t ∈ tokenize s) : trim t = t := by
  unfold tokenize at h
  rcases List.mem_map.mp (List.mem_of_mem_filter h) with ⟨x, _, rfl⟩
  exact trim_idem x

/-- The weight `parseToken` assigns: the explicit suffix when the (trimmed)
token carries one, the position-based default otherwise. -/
def tokenWeight (t : List Char) (position totalConditions : Nat) : ℚ :=
  match weightSplit (trim t) with
  | some (_, d) => (digitsToNat d : ℚ)
  | none => ((totalConditions - position : Nat) : ℚ)

theorem parseConditionBody_ok_weight {cp tr : List Char} {negated : Bool} {w : ℚ}
    {c : QueryCondition} (h : parseConditionBody cp negated w tr = .ok c) :
    c.weight = w := by
  unfold parseConditionBody at h
  split at h
  · cases h; rfl
  · split at h
    · cases h; rfl
    · cases h

theorem parseToken_ok_weight {t : List Char} {pos total : Nat} {c : QueryCondition}
    (h : parseToken t pos total = .ok c) : c.weight = tokenWeight t pos total := by
  simp only [parseToken] at h
  simp only [tokenWeight]
  cases hws : weightSplit (trim t) with
  | none =>
    rw [hws] at h
    dsimp only at h
    rcases hns : negationSplit (trim t) with ⟨neg, cp⟩
    rw [hns] at h
    exact parseConditionBody_ok_weight h
  | some pd =>
    obtain ⟨p, d⟩ := pd
    rw [hws] at h
    dsimp only at h
    rcases hns : negationSplit (trim p) with ⟨neg, cp⟩
    rw [hns] at h
    exact parseConditionBody_ok_weight h

theorem parseTokens_ok_length {total : Nat} :
    ∀ {i : Nat} {ts : List (List Char)} {cs : List QueryCondition},
      parseTokens total i ts = .ok cs → cs.length = ts.length := by
  intro i ts
  induction ts generalizing i with
  | nil =>
    intro cs h
    simp [parseTokens] at h
    simp [← h]
  | cons t ts ih =>
    intro cs h
    simp only [parseTokens, bind, Except.bind] at h
    cases hpt : parseToken t i total with
    | error e => rw [hpt] at h; cases h
    | ok c =>
      rw [hpt] at h
      cases hrest : parseTokens total (i + 1) ts with
      | error e => rw [hrest] at h; cases h
      | ok cs' =>
        rw [hrest] at h
        cases h
        simp [ih hrest]

theorem parseTokens_ok_weight {total : Nat} :
    ∀ {i : Nat} {ts : List (List Char)} {cs : List QueryCondition},
      parseTokens total i ts = .ok cs →
      ∀ j t, ts[j]? = some t →
        ∃ c, cs[j]? = some c ∧ c.weight = tokenWeight t (i + j) total := by
  intro i ts
  induction ts generalizing i with
  | nil =>
    intro cs _ j t hj
    simp at hj
  | cons t0 ts ih =>
    intro cs h j t hj
    simp only [parseTokens, bind, Except.bind] at h
    cases hpt : parseToken t0 i total with
    | error e => rw [hpt] at h; cases h
    | ok c =>
      rw [hpt] at h
      cases hrest : parseTokens total (i + 1) ts with
      | error e => rw [hrest] at h; cases h
      | ok cs' =>
        rw [hrest] at h
        cases h
        cases j with
        | zero =>
          simp at hj
          exact ⟨c, by simp, hj ▸ parseToken_ok_weight hpt⟩
        | succ j' =>
          simp only [List.getElem?_cons_succ] at hj
          obtain ⟨c', hc', hw⟩ := ih hrest j' t hj
          exact ⟨c', by simpa using hc', by rw [hw]; congr 1; omega⟩

/-- C4.  Position-based default weights: when `parseQuery` (with the default
empty alias map) succeeds, it returns one condition per non-blank token, and
the condition from the token at 0-based position `i` carries the token's
explicit `:<nonneg-integer>` suffix as its weight when it has one, and the
default `N - i` (for `N` tokens) otherwise — the earliest token gets the
highest default weight. -/
theorem c4_position_weights (query : List Char) (q : ParsedQuery)
    (h : parseQuery query = .ok q) :
    q.conditions.length = (tokenize query).length ∧
    ∀ i t, (tokenize query)[i]? = some t →
      ∃ c, q.conditions[i]? = some c ∧
        c.weight = (match weightSplit t with
          | some (_, d) => (digitsToNat d : ℚ)
          | none => (((tokenize query).length - i : Nat) : ℚ)) := by
  unfold parseQuery at h
  dsimp only at h
  rw [tokenize_expandAliases_nil] at h
  cases he : (tokenize query).isEmpty with
  | true => rw [he] at h; cases h
  | false =>
    rw [he] at h
    simp only [Except.map] at h
    cases hpt : parseTokens (tokenize query).length 0 (tokenize query) with
    | error e => rw [hpt] at h; cases h
    | ok cs =>
      rw [hpt] at h
      cases h
      refine ⟨parseTokens_ok_length hpt, ?_⟩
      intro i t hit
      obtain ⟨c, hc, hw⟩ := parseTokens_ok_weight hpt i t hit
      refine ⟨c, hc, ?_⟩
      rw [hw]
      have htr : trim t = t :=
        tokenize_mem_trim (List.getElem?_mem hit)
      simp only [tokenWeight, htr, Nat.zero_add]

/-- The example query for the C4 witness. -/
def c4ExampleQuery : List Char := "a, b:7, c".toList

/-- Witness for C4: `"a, b:7, c"` parses, has one condition per token, and
the second token's explicit `:7` suffix becomes its weight while the flanking
tokens get the defaults 3 and 1. -/
theorem c4_position_weights_witness :
    (∃ q, parseQuery c4ExampleQuery = .ok q ∧
      q.conditions.length = (tokenize c4ExampleQuery).length ∧
      (∃ c, q.conditions[0]? = some c ∧ c.weight = 3) ∧
      (∃ c, q.conditions[1]? = some c ∧ c.weight = 7) ∧
      (∃ c, q.conditions[2]? = some c ∧ c.weight = 1)) := by
  have hq : parseQuery c4ExampleQuery =
      .ok ⟨[⟨['a'], .eq, .bool true, false, 3⟩,
            ⟨['b'], .eq, .bool true, false, 7⟩,
            ⟨['c'], .eq, .bool true, false, 1⟩]⟩ := rfl
  obtain ⟨hlen, hw⟩ := c4_position_weights c4ExampleQuery _ hq
  refine ⟨_, hq, hlen, ?_, ?_, ?_⟩
  · obtain ⟨c, hc, hcw⟩ := hw 0 "a".toList rfl
    exact ⟨c, hc, by simpa using hcw⟩
  · obtain ⟨c, hc, hcw⟩ := hw 1 "b:7".toList rfl
    exact ⟨c, hc, by simpa using hcw⟩
  · obtain ⟨c, hc, hcw⟩ := hw 2 "c".toList rfl
    exact ⟨c, hc, by simpa using hcw⟩

/-!
### Stable-sort lemmas for the ranker
-/

theorem mem_insertDescBy {α : Type} (key : α → ℚ) (a x : α) :
    ∀ l : List α, x ∈ insertDescBy key a l ↔ x = a ∨ x ∈ l := by
  intro l
  induction l with
  | nil => simp [insertDescBy]
  | cons b bs ih =>
    unfold insertDescBy
    split
    · simp
    · simp only [List.mem_cons, ih]
      tauto

theorem insertDescBy_perm {α : Type} (key : α → ℚ) (a : α) :
    ∀ l : List α, (insertDescBy key a l).Perm (a :: l) := by
  intro l
  induction l with
  | nil => simp [insertDescBy]
  | cons b bs ih =>
    unfold insertDescBy
    split
    · exact List.Perm.refl _
    · exact ((ih.cons b).trans (List.Perm.swap a b bs))

theorem foldl_insertDescBy_perm {α : Type} (key : α → ℚ) :
    ∀ (l acc : List α),
      (l.foldl (fun acc a => insertDescBy key a acc) acc).Perm (acc ++ l) := by
  intro l
  induction l with
  | nil => intro acc; simp
  | cons a l ih =>
    intro acc
    have h1 := ih (insertDescBy key a acc)
    have h2 : (insertDescBy key a acc ++ l).Perm ((a :: acc) ++ l) :=
      (insertDescBy_perm key a acc).append_right l
    have h3 : (a :: (acc ++ l)).Perm (acc ++ a :: l) := List.perm_middle.symm
    exact h1.trans (h2.trans h3)

theorem stableSortDesc_perm {α : Type} (key : α → ℚ) (l : List α) :
    (stableSortDesc key l).Perm l := by
  simpa using foldl_insertDescBy_perm key l []

theorem insertDescBy_pairwise {α : Type} (key : α → ℚ) (idx : α → Nat) {a : α} :
    ∀ {l : List α},
      l.Pairwise (fun x y => key y < key x ∨ (key x = key y ∧ idx x < idx y)) →
      (∀ b ∈ l, idx b < idx a) →
      (insertDescBy key a l).Pairwise
        (fun x y => key y < key x ∨ (key x = key y ∧ idx x < idx y)) := by
  intro l
  induction l with
  | nil => intro _ _; simp [insertDescBy]
  | cons b bs ih =>
    intro hl ha
    rw [List.pairwise_cons] at hl
    unfold insertDescBy
    split
    · rename_i hba
      refine List.Pairwise.cons ?_ (List.Pairwise.cons hl.1 hl.2)
      intro x hx
      rcases List.mem_cons.mp hx with rfl | hx
      · exact Or.inl hba
      · rcases hl.1 x hx with h | ⟨h, _⟩
        · exact Or.inl (h.trans hba)
        · exact Or.inl (h ▸ hba)
    · rename_i hba
      refine List.Pairwise.cons ?_ (ih hl.2 (fun c hc => ha c (List.mem_cons_of_mem b hc)))
      intro x hx
      rcases (mem_insertDescBy key a x bs).mp hx with rfl | hx
      · rcases lt_or_eq_of_le (le_of_not_lt hba) with h | h
        · exact Or.inl h
        · exact Or.inr ⟨h.symm, ha b (List.mem_cons_self b bs)⟩
      · exact hl.1 x hx

theorem foldl_insertDescBy_pairwise {α : Type} (key : α → ℚ) (idx : α → Nat) :
    ∀ (l acc : List α),
      acc.Pairwise (fun x y => key y < key x ∨ (key x = key y ∧ idx x < idx y)) →
      (∀ a ∈ l, ∀ b ∈ acc, idx b < idx a) →
      l.Pairwise (fun x y => idx x < idx y) →
      (l.foldl (fun acc a => insertDescBy key a acc) acc).Pairwise
        (fun x y => key y < key x ∨ (key x = key y ∧ idx x < idx y)) := by
  intro l
  induction l with
  | nil => intro acc hacc _ _; exact hacc
  | cons a l ih =>
    intro acc hacc hidx hl
    rw [List.pairwise_cons] at hl
    refine ih (insertDescBy key a acc)
      (insertDescBy_pairwise key idx hacc
        (fun b hb => hidx a (List.mem_cons_self a l) b hb)) ?_ hl.2
    intro c hc b hb
    rcases (mem_insertDescBy key a b acc).mp hb with rfl | hb
    · exact hl.1 c hc
    · exact hidx c (List.mem_cons_of_mem a hc) b hb

theorem stableSortDesc_pairwise {α : Type} (key : α → ℚ) (idx : α → Nat) (l : List α)
    (hl : l.Pairwise (fun x y => idx x < idx y)) :
    (stableSortDesc key l).Pairwise
      (fun x y => key y < key x ∨ (key x = key y ∧ idx x < idx y)) :=
  foldl_insertDescBy_pairwise key idx l [] (by simp) (by simp) hl

theorem map_snd_insertDescBy (a : Nat × RankedModel) :
    ∀ l : List (Nat × RankedModel),
      (insertDescBy (fun p => p.2.normalizedScore) a l).map Prod.snd =
        insertDescBy RankedModel.normalizedScore a.2 (l.map Prod.snd) := by
  intro l
  induction l with
  | nil => rfl
  | cons b bs ih =>
    simp only [List.map_cons, insertDescBy]
    by_cases h : b.2.normalizedScore < a.2.normalizedScore <;> simp [h, ih]

theorem map_snd_stableSortDesc :
    ∀ (l : List (Nat × RankedModel)) (acc : List (Nat × RankedModel)),
      (l.foldl (fun acc a => insertDescBy (fun p => p.2.normalizedScore) a acc) acc).map
          Prod.snd =
        (l.map Prod.snd).foldl
          (fun acc a => insertDescBy RankedModel.normalizedScore a acc) (acc.map Prod.snd) := by
  intro l
  induction l with
  | nil => intro acc; rfl
  | cons a l ih =>
    intro acc
    simp only [List.foldl_cons, List.map_cons, ih, map_snd_insertDescBy]

theorem enum_pairwise_fst_lt {α : Type} (l : List α) :
    l.enum.Pairwise (fun x y => x.1 < y.1) := by
  have h : (l.enum.map Prod.fst).Pairwise (· < ·) := by
    rw [List.enum_map_fst]
    exact List.pairwise_lt_range l.length
  exact (List.pairwise_map).mp h

/-- C8.  Stable descending ranking: whenever ranking succeeds, the sorted
list (tagged with each candidate's position in the enabled-model
enumeration) is pairwise ordered so that a candidate precedes another
exactly when its normalized score is strictly greater, or the scores tie
and it came earlier in the input enumeration; the tags are a permutation of
`0..n-1`; dropping the tags is exactly `rankModels`; and `selectModels`'
truncation takes the first `count` entries of that order. -/
theorem c8_ranking_stable_desc (query : List Char) (config : Config)
    (l : List (Nat × RankedModel)) (h : rankModelsEnum query config = .ok l) :
    rankModels query config = .ok (l.map Prod.snd) ∧
    l.Pairwise (fun a b => b.2.normalizedScore < a.2.normalizedScore ∨
      (a.2.normalizedScore = b.2.normalizedScore ∧ a.1 < b.1)) ∧
    (l.map Prod.fst).Perm (List.range l.length) ∧
    (∀ count, selectRanked query config (some count) = .ok ((l.map Prod.snd).take count)) := by
  unfold rankModelsEnum at h
  cases hp : parseQuery query config.aliases with
  | error e => rw [hp] at h; cases h
  | ok parsedQuery =>
    rw [hp] at h
    dsimp only at h
    cases hem : (getEnabledModels config).isEmpty with
    | true => rw [hem] at h; cases h
    | false =>
      rw [hem] at h
      cases h
      set scored := (getEnabledModels config).map (fun p =>
        let matchResult := matchModel p.2.attributes parsedQuery
        RankedModel.mk p.1 p.2 matchResult (normalizeScore matchResult)) with hscored
      have hrank : rankModels query config =
          .ok (stableSortDesc RankedModel.normalizedScore scored) := by
        unfold rankModels
        rw [hp]
        dsimp only
        rw [hem]
        rfl
      have hmap : (stableSortDesc (fun p => p.2.normalizedScore) scored.enum).map Prod.snd =
          stableSortDesc RankedModel.normalizedScore scored := by
        unfold stableSortDesc
        rw [map_snd_stableSortDesc scored.enum []]
        simp [List.enum_map_snd]
      have hperm := stableSortDesc_perm (fun p => p.2.normalizedScore) scored.enum
      refine ⟨hmap ▸ hrank, ?_, ?_, ?_⟩
      · exact stableSortDesc_pairwise (fun p => p.2.normalizedScore) Prod.fst scored.enum
          (enum_pairwise_fst_lt scored)
      · have hlen : (stableSortDesc (fun p => p.2.normalizedScore) scored.enum).length =
            scored.length := by
          rw [hperm.length_eq, List.enum_length]
        rw [hlen]
        have := hperm.map Prod.fst
        rw [List.enum_map_fst] at this
        exact this
      · intro count
        unfold selectRanked
        rw [hrank, hmap]
        rfl

/-- The one-model configuration of the C8 witness. -/
def c8Config : Config :=
  { models := [("alpha".toList,
      { provider := "p".toList, model_id := "m".toList,
        attributes := [("local".toList, .bool true)] })] }

/-- Witness for C8: ranking the one-model configuration for the query
`"local"` succeeds, and the theorem's ordering, permutation and truncation
conclusions hold for it. -/
theorem c8_ranking_stable_desc_witness :
    (∃ l, rankModelsEnum "local".toList c8Config = .ok l ∧
      rankModels "local".toList c8Config = .ok (l.map Prod.snd) ∧
      (l.map Prod.fst).Perm (List.range l.length)) := by
  have h : rankModelsEnum "local".toList c8Config =
      .ok [(0, RankedModel.mk "alpha".toList
        { provider := "p".toList, model_id := "m".toList,
          attributes := [("local".toList, .bool true)] }
        (matchModel [("local".toList, .bool true)] ⟨[⟨"local".toList, .eq, .bool true, false, 1⟩]⟩)
        (normalizeScore
          (matchModel [("local".toList, .bool true)]
            ⟨[⟨"local".toList, .eq, .bool true, false, 1⟩]⟩)))] := rfl
  obtain ⟨h1, _, h3, _⟩ := c8_ranking_stable_desc "local".toList c8Config _ h
  exact ⟨_, h, h1, h3⟩

/-!
### Executor lemmas
-/

theorem transient_flags {e : JsError} (h : (classifyError e).category = .TRANSIENT) :
    (classifyError e).shouldRetry = true ∧ (classifyError e).shouldFallback = true := by
  simp only [classifyError] at h ⊢
  split_ifs at h ⊢ <;> simp_all

/-- The retry loop on an operation whose every attempt fails with a
retryable, fallback-eligible error runs `remaining + 1` more attempts and
ends with a fallback-eligible error. -/
theorem retryGo_all_fail {T : Type} {op : Nat → Except JsError T}
    {modelName provider : List Char}
    (hfail : ∀ n, ∃ e, op n = .error e ∧ (classifyError e).shouldRetry = true ∧
      (classifyError e).shouldFallback = true) :
    ∀ (remaining attempt : Nat) (acc : List AttemptInfo),
      ∃ e log, retryGo op modelName provider attempt acc remaining = (.error e, acc ++ log) ∧
        log.length = remaining + 1 ∧ (classifyError e).shouldFallback = true := by
  intro remaining
  induction remaining with
  | zero =>
    intro attempt acc
    obtain ⟨e, he, hr, hf⟩ := hfail attempt
    refine ⟨e, [⟨modelName, provider, false, some e, 0⟩], ?_, by simp, hf⟩
    unfold retryGo
    rw [he]
    dsimp only
    rw [hr]
    simp
  | succ r ih =>
    intro attempt acc
    obtain ⟨e, he, hr, hf⟩ := hfail attempt
    obtain ⟨e', log', hrec, hlen, hf'⟩ :=
      ih (attempt + 1) (acc ++ [⟨modelName, provider, false, some e, 0⟩])
    refine ⟨e', ⟨modelName, provider, false, some e, 0⟩ :: log', ?_, by simp [hlen], hf'⟩
    unfold retryGo
    rw [he]
    dsimp only
    rw [hr]
    simp only [Bool.true_eq_false, if_false, hrec, List.append_assoc, List.singleton_append]

/-- `executeWithRetry` on an always-failing retryable operation makes
exactly `maxRetries + 1` attempts. -/
theorem executeWithRetry_all_fail {T : Type} {op : Nat → Except JsError T}
    {modelName provider : List Char} {mr : Nat}
    (hfail : ∀ n, ∃ e, op n = .error e ∧ (classifyError e).shouldRetry = true ∧
      (classifyError e).shouldFallback = true) :
    ∃ e log, executeWithRetry op modelName provider mr = (.error e, log) ∧
      log.length = mr + 1 ∧ (classifyError e).shouldFallback = true := by
  obtain ⟨e, log, h, hlen, hf⟩ := retryGo_all_fail hfail mr 0 []
  exact ⟨e, log, by simpa using h, by omega, hf⟩

/-- `executeWithRetry` on an operation that succeeds at once records one
successful attempt. -/
theorem executeWithRetry_first_ok {T : Type} {op : Nat → Except JsError T}
    {modelName provider : List Char} {mr : Nat} {v : T} (h : op 0 = .ok v) :
    executeWithRetry op modelName provider mr =
      (.ok v, [⟨modelName, provider, true, none, 0⟩]) := by
  unfold executeWithRetry retryGo
  rw [h]
  simp

/-- C1 (amended).  Three ranked candidates, every attempt of the first two
failing with a `TRANSIENT`-classified error and the third succeeding at
once: the execution resolves with the third candidate's output and
`fallbacksUsed = 2`; the engine makes `(1 + maxRetries) * 2 + 1` physical
invocation attempts (the second component of the model observes them); but
the returned `attempts` log contains only the succeeding candidate's single
entry, because the source discards a failed candidate's per-attempt log
when its retry loop throws. -/
theorem c1_fallback_scenario {T : Type} (opts : ExecOptions)
    (c₁ c₂ c₃ : ModelCandidate T) (v : T)
    (hfc : 3 ≤ opts.fallbackCount)
    (h₁ : ∀ n, ∃ e, c₁.op n = .error e ∧ (classifyError e).category = .TRANSIENT)
    (h₂ : ∀ n, ∃ e, c₂.op n = .error e ∧ (classifyError e).category = .TRANSIENT)
    (h₃ : c₃.op 0 = .ok v) :
    ∃ log, executeWithFallbacks [c₁, c₂, c₃] opts =
      (.ok ⟨v, c₃.modelName, c₃.config,
        [⟨c₃.modelName, c₃.config.provider, true, none, 0⟩], 2⟩, log) ∧
      log.length = (1 + opts.maxRetries) * 2 + 1 := by
  have hflags : ∀ (c : ModelCandidate T),
      (∀ n, ∃ e, c.op n = .error e ∧ (classifyError e).category = .TRANSIENT) →
      ∀ n, ∃ e, c.op n = .error e ∧ (classifyError e).shouldRetry = true ∧
        (classifyError e).shouldFallback = true := by
    intro c hc n
    obtain ⟨e, he, hcat⟩ := hc n
    obtain ⟨hr, hf⟩ := transient_flags hcat
    exact ⟨e, he, hr, hf⟩
  obtain ⟨e₁, log₁, hr₁, hlen₁, hf₁⟩ := @executeWithRetry_all_fail T c₁.op
    c₁.modelName c₁.config.provider opts.maxRetries (hflags c₁ h₁)
  obtain ⟨e₂, log₂, hr₂, hlen₂, hf₂⟩ := @executeWithRetry_all_fail T c₂.op
    c₂.modelName c₂.config.provider opts.maxRetries (hflags c₂ h₂)
  have hr₃ := @executeWithRetry_first_ok T c₃.op
    c₃.modelName c₃.config.provider opts.maxRetries v h₃
  have htake : ([c₁, c₂, c₃] : List (ModelCandidate T)).take opts.fallbackCount =
      [c₁, c₂, c₃] := List.take_of_length_le (by simpa using hfc)
  refine ⟨log₁ ++ (log₂ ++ [⟨c₃.modelName, c₃.config.provider, true, none, 0⟩]), ?_, ?_⟩
  · have hrun : executeWithFallbacks [c₁, c₂, c₃] opts = fallbackGo opts 0 [] [c₁, c₂, c₃] := by
      unfold executeWithFallbacks
      rw [htake]
      rfl
    rw [hrun]
    simp only [fallbackGo, hr₁, hf₁, hr₂, hf₂, hr₃]
    simp
  · simp [hlen₁, hlen₂]
    ring

/-- Concrete error, configuration and candidates for the C1 and C7
demonstrations: two candidates failing every attempt with a transient
network error, one failing with a non-fallback invalid-request error, one
succeeding. -/
def netErrDemo : JsError := { message := "network error".toList }

/-- The invalid-request demonstration error. -/
def invalidErrDemo : JsError := { message := "Invalid request: bad input".toList }

/-- Demonstration model configuration. -/
def demoCfg : ModelConfig := { provider := "prov".toList, model_id := "mid".toList }

/-- A candidate failing every attempt with `netErrDemo`. -/
def demoFailCand (name : String) : ModelCandidate String :=
  ⟨name.toList, demoCfg, fun _ => .error netErrDemo⟩

/-- A candidate failing every attempt with `invalidErrDemo`. -/
def demoInvalidCand (name : String) : ModelCandidate String :=
  ⟨name.toList, demoCfg, fun _ => .error invalidErrDemo⟩

/-- A candidate succeeding at once with the given value. -/
def demoOkCand (name : String) (v : String) : ModelCandidate String :=
  ⟨name.toList, demoCfg, fun _ => .ok v⟩

/-- Counterexample to C1 as stated: in the 3-candidate scenario with default
options (`maxRetries = 2`), the execution does make `(1+2)*2+1 = 7` physical
attempts, but the `attempts` log returned to the caller has length 1, not 7
— the failed candidates' per-attempt histories are not attached. -/
theorem c1_attempt_log_counterexample :
    (executeWithFallbacks [demoFailCand "m1", demoFailCand "m2", demoOkCand "m3" "ok3"]
        {}).1 =
      .ok ⟨"ok3", "m3".toList, demoCfg, [⟨"m3".toList, "prov".toList, true, none, 0⟩], 2⟩ ∧
    (executeWithFallbacks [demoFailCand "m1", demoFailCand "m2", demoOkCand "m3" "ok3"]
        {}).2.length = 7 ∧
    ((executeWithFallbacks [demoFailCand "m1", demoFailCand "m2", demoOkCand "m3" "ok3"]
        {}).1.map (fun r => r.attempts.length)) = .ok 1 ∧
    (1 : Nat) ≠ (1 + ExecOptions.maxRetries {}) * 2 + 1 :=
  ⟨rfl, rfl, rfl, by decide⟩

/-- Witness for C1 (amended): the theorem applied to the concrete
demonstration candidates with default options. -/
theorem c1_fallback_scenario_witness :
    ∃ log,
      executeWithFallbacks [demoFailCand "m1", demoFailCand "m2", demoOkCand "m3" "ok3"]
          {} =
        (.ok ⟨"ok3", (demoOkCand "m3" "ok3").modelName, (demoOkCand "m3" "ok3").config,
          [⟨(demoOkCand "m3" "ok3").modelName,
            (demoOkCand "m3" "ok3").config.provider, true, none, 0⟩], 2⟩, log) ∧
      log.length = (1 + ExecOptions.maxRetries {}) * 2 + 1 :=
  c1_fallback_scenario {} (demoFailCand "m1") (demoFailCand "m2") (demoOkCand "m3" "ok3")
    "ok3" (by decide)
    (fun n => ⟨netErrDemo, rfl, by decide⟩)
    (fun n => ⟨netErrDemo, rfl, by decide⟩)
    rfl

/-- The candidate loop, upon reaching a candidate whose terminal error is
not fallback-eligible (after any number of candidates whose terminal errors
were), rejects with that bare error and produces a log that does not depend
on the candidates ranked after it — they are never invoked. -/
theorem fallbackGo_short_circuit {T : Type} (opts : ExecOptions) {c : ModelCandidate T}
    {e : JsError}
    (hc : (executeWithRetry c.op c.modelName c.config.provider opts.maxRetries).1 = .error e)
    (hnf : (classifyError e).shouldFallback = false) :
    ∀ (cs₁ : List (ModelCandidate T)),
      (∀ c' ∈ cs₁, ∃ e',
        (executeWithRetry c'.op c'.modelName c'.config.provider opts.maxRetries).1 =
          .error e' ∧ (classifyError e').shouldFallback = true) →
      ∀ i failed, ∃ log, ∀ cs₂,
        fallbackGo opts i failed (cs₁ ++ c :: cs₂) = (.error (.bare e), log) := by
  intro cs₁
  induction cs₁ with
  | nil =>
    intro _ i failed
    refine ⟨(executeWithRetry c.op c.modelName c.config.provider opts.maxRetries).2, ?_⟩
    intro cs₂
    rcases hre : executeWithRetry c.op c.modelName c.config.provider opts.maxRetries
      with ⟨res, catt⟩
    rw [hre] at hc
    dsimp at hc
    subst hc
    simp only [List.nil_append, fallbackGo, hre, hnf]
    simp
  | cons c' cs₁ ih =>
    intro hyp i failed
    obtain ⟨e', he', hf'⟩ := hyp c' (List.mem_cons_self c' cs₁)
    obtain ⟨log, hlog⟩ := ih (fun x hx => hyp x (List.mem_cons_of_mem c' hx))
      (i + 1) (failed ++ [(c'.modelName, e')])
    rcases hre : executeWithRetry c'.op c'.modelName c'.config.provider opts.maxRetries
      with ⟨res', catt'⟩
    rw [hre] at he'
    dsimp at he'
    subst he'
    refine ⟨catt' ++ log, ?_⟩
    intro cs₂
    simp only [List.cons_append, fallbackGo, hre, hf', List.append_eq]
    rw [hlog cs₂]
    simp

/-- `executeWithFallbacks` is the candidate loop on the truncated list when
that list is non-empty. -/
theorem executeWithFallbacks_eq_go {T : Type} (opts : ExecOptions)
    (candidates : List (ModelCandidate T))
    (h : (candidates.take opts.fallbackCount).isEmpty = false) :
    executeWithFallbacks candidates opts =
      fallbackGo opts 0 [] (candidates.take opts.fallbackCount) := by
  simp only [executeWithFallbacks, h]
  rfl

/-- C7.  Fallback short-circuit on non-fallback errors: if every candidate
ranked before `c` (inside the `fallbackCount` truncation) fails with a
fallback-eligible terminal error and `c`'s terminal error classifies with
`shouldFallback = false`, the whole execution rejects with `c`'s bare error,
and its entire outcome (result and physical log) is independent of the
candidates ranked after `c` — their operations are never invoked. -/
theorem c7_no_fallback_short_circuit {T : Type} (opts : ExecOptions)
    (cs₁ : List (ModelCandidate T)) (c : ModelCandidate T)
    (cs₂ cs₂' : List (ModelCandidate T)) (e : JsError)
    (hlen : cs₁.length < opts.fallbackCount)
    (hfb : ∀ c' ∈ cs₁, ∃ e',
      (executeWithRetry c'.op c'.modelName c'.config.provider opts.maxRetries).1 =
        .error e' ∧ (classifyError e').shouldFallback = true)
    (hc : (executeWithRetry c.op c.modelName c.config.provider opts.maxRetries).1 = .error e)
    (hnf : (classifyError e).shouldFallback = false) :
    (executeWithFallbacks (cs₁ ++ c :: cs₂) opts).1 = .error (.bare e) ∧
    executeWithFallbacks (cs₁ ++ c :: cs₂) opts =
      executeWithFallbacks (cs₁ ++ c :: cs₂') opts := by
  obtain ⟨k, hk⟩ : ∃ k, opts.fallbackCount - cs₁.length = k + 1 :=
    ⟨opts.fallbackCount - cs₁.length - 1, by omega⟩
  have htake : ∀ cs₂ : List (ModelCandidate T),
      (cs₁ ++ c :: cs₂).take opts.fallbackCount = cs₁ ++ c :: cs₂.take k := by
    intro cs₂
    rw [List.take_append_eq_append_take,
      List.take_of_length_le (le_of_lt hlen), hk, List.take_succ_cons]
  have hne : ∀ cs₂ : List (ModelCandidate T),
      ((cs₁ ++ c :: cs₂).take opts.fallbackCount).isEmpty = false := by
    intro cs₂
    rw [htake cs₂]
    cases cs₁ <;> simp
  obtain ⟨log, hlog⟩ := fallbackGo_short_circuit opts hc hnf cs₁ hfb 0 []
  have hrun : ∀ cs₂ : List (ModelCandidate T),
      executeWithFallbacks (cs₁ ++ c :: cs₂) opts = (.error (.bare e), log) := by
    intro cs₂
    rw [executeWithFallbacks_eq_go opts _ (hne cs₂), htake cs₂, hlog (cs₂.take k)]
  rw [hrun cs₂, hrun cs₂']
  exact ⟨rfl, rfl⟩

/-- Witness for C7: with default options, a transient-failing first
candidate followed by an invalid-request candidate aborts with the bare
invalid-request error, identically whether or not a healthy third candidate
is ranked after it. -/
theorem c7_no_fallback_short_circuit_witness :
    (executeWithFallbacks
        [demoFailCand "m1", demoInvalidCand "m2", demoOkCand "m3" "x"] {}).1 =
      .error (.bare invalidErrDemo) ∧
    executeWithFallbacks [demoFailCand "m1", demoInvalidCand "m2", demoOkCand "m3" "x"] {} =
      executeWithFallbacks [demoFailCand "m1", demoInvalidCand "m2"] {} := by
  have h := c7_no_fallback_short_circuit {} [demoFailCand "m1"] (demoInvalidCand "m2")
    [demoOkCand "m3" "x"] [] invalidErrDemo (by decide)
    (fun c' hc' => by
      rw [List.mem_singleton.mp hc']
      exact ⟨netErrDemo, rfl, by decide⟩)
    rfl (by decide)
  simpa using h

/-- The single attempt entry the streaming loop records for a candidate. -/
def streamAttemptEntry {T : Type} (c : StreamCandidate T) : AttemptInfo :=
  match c.outcome with
  | .ok _ => ⟨c.modelName, c.config.provider, true, none, 0⟩
  | .error e => ⟨c.modelName, c.config.provider, false, some e, 0⟩

/-- The streaming loop appends exactly one attempt entry per candidate it
tries, in rank order. -/
theorem streamGo_attempts {T : Type} :
    ∀ (cs : List (StreamCandidate T)) (i : Nat) (failed : List (List Char × JsError))
      (acc : List AttemptInfo),
      ∃ k, k ≤ cs.length ∧
        (streamGo i failed acc cs).2.2 = acc ++ (cs.take k).map streamAttemptEntry := by
  intro cs
  induction cs with
  | nil =>
    intro i failed acc
    exact ⟨0, by simp, by simp [streamGo]⟩
  | cons c rest ih =>
    intro i failed acc
    cases hco : c.outcome with
    | ok v =>
      refine ⟨1, by simp, ?_⟩
      simp [streamGo, hco, streamAttemptEntry]
    | error e =>
      cases hsf : (classifyError e).shouldFallback with
      | false =>
        refine ⟨1, by simp, ?_⟩
        simp [streamGo, hco, hsf, streamAttemptEntry]
      | true =>
        obtain ⟨k, hk, hatt⟩ := ih (i + 1) (failed ++ [(c.modelName, e)])
          (acc ++ [⟨c.modelName, c.config.provider, false, some e, 0⟩])
        refine ⟨k + 1, by simpa using hk, ?_⟩
        simp only [streamGo, hco, hsf]
        simp only [Bool.true_eq_false, if_false]
        rw [show (streamGo (i + 1) (failed ++ [(c.modelName, e)])
            (acc ++ [⟨c.modelName, c.config.provider, false, some e, 0⟩]) rest) =
          ((streamGo (i + 1) (failed ++ [(c.modelName, e)])
            (acc ++ [⟨c.modelName, c.config.provider, false, some e, 0⟩]) rest).1,
           (streamGo (i + 1) (failed ++ [(c.modelName, e)])
            (acc ++ [⟨c.modelName, c.config.provider, false, some e, 0⟩]) rest).2.1,
           (streamGo (i + 1) (failed ++ [(c.modelName, e)])
            (acc ++ [⟨c.modelName, c.config.provider, false, some e, 0⟩]) rest).2.2) from rfl]
        dsimp only
        rw [hatt]
        simp [streamAttemptEntry, hco, List.take_succ_cons]

/-- C2 (amended).  Streaming-mode attempt policy: (1) every candidate the
streaming engine tries receives exactly one attempt — the shared attempts
log is one entry per tried candidate in rank order, with no per-candidate
retry loop in streaming mode; (2) a candidate whose stream fails with a
fallback-eligible error — whether before any chunk or after some chunks —
hands over directly to the next ranked candidate: the loop records the one
failure entry, keeps the already-yielded chunks at the front of the emitted
sequence, and continues with the remaining candidates. -/
theorem c2_stream_single_attempt :
    (∀ (T : Type) (cs : List (StreamCandidate T)), ∃ k, k ≤ cs.length ∧
      (streamRun cs).2.2 = (cs.take k).map streamAttemptEntry) ∧
    (∀ (T : Type) (c : StreamCandidate T) (rest : List (StreamCandidate T)) (e : JsError),
      c.outcome = .error e → (classifyError e).shouldFallback = true →
      streamRun (c :: rest) =
        ((c.chunks.map fun t => StreamChunk.mk t c.modelName) ++
            (streamGo 1 [(c.modelName, e)]
              [⟨c.modelName, c.config.provider, false, some e, 0⟩] rest).1,
          (streamGo 1 [(c.modelName, e)]
            [⟨c.modelName, c.config.provider, false, some e, 0⟩] rest).2.1,
          (streamGo 1 [(c.modelName, e)]
            [⟨c.modelName, c.config.provider, false, some e, 0⟩] rest).2.2)) := by
  constructor
  · intro T cs
    cases cs with
    | nil => exact ⟨0, by simp, by simp [streamRun]⟩
    | cons c rest =>
      obtain ⟨k, hk, hatt⟩ := streamGo_attempts (c :: rest) 0 [] []
      exact ⟨k, hk, by simpa [streamRun] using hatt⟩
  · intro T c rest e hco hsf
    show streamGo 0 [] [] (c :: rest) = _
    simp only [streamGo, hco, hsf]
    simp

/-- A streaming candidate that fails before yielding any chunk. -/
def streamFailCandDemo : StreamCandidate String :=
  ⟨"m1".toList, demoCfg, [], .error netErrDemo⟩

/-- A streaming candidate that fails after yielding two chunks. -/
def streamMidCandDemo : StreamCandidate String :=
  ⟨"m1".toList, demoCfg, ["pa".toList, "rt".toList], .error netErrDemo⟩

/-- A streaming candidate that completes, yielding one chunk. -/
def streamOkCandDemo : StreamCandidate String :=
  ⟨"m2".toList, demoCfg, ["hello".toList], .ok "hello"⟩

/-- Counterexample to C2 as stated: the first candidate fails before any
chunk with a retryable (`shouldRetry = true`) transient error under default
options (`maxRetries = 2`), yet the engine attempts it exactly once — one
log entry, not `1 + maxRetries` — and moves straight to the second
candidate, which resolves with `fallbacksUsed = 1`. -/
theorem c2_stream_no_retry_counterexample :
    streamFailCandDemo.chunks = [] ∧
    streamFailCandDemo.outcome = .error netErrDemo ∧
    (classifyError netErrDemo).shouldRetry = true ∧
    streamRun [streamFailCandDemo, streamOkCandDemo] =
      ([⟨"hello".toList, "m2".toList⟩],
       .ok ⟨"hello", "m2".toList, demoCfg,
         [⟨"m1".toList, "prov".toList, false, some netErrDemo, 0⟩,
          ⟨"m2".toList, "prov".toList, true, none, 0⟩], 1⟩,
       [⟨"m1".toList, "prov".toList, false, some netErrDemo, 0⟩,
        ⟨"m2".toList, "prov".toList, true, none, 0⟩]) ∧
    (streamRun [streamFailCandDemo, streamOkCandDemo]).2.2.countP
        (fun a => decide (a.modelName = "m1".toList)) = 1 ∧
    (1 : Nat) ≠ 1 + ExecOptions.maxRetries {} :=
  ⟨rfl, rfl, by decide, rfl, rfl, by decide⟩

/-- Witness for C2 (amended): a candidate that fails mid-stream after two
chunks hands over directly to the next candidate, its two chunks staying
emitted. -/
theorem c2_stream_single_attempt_witness :
    streamMidCandDemo.outcome = .error netErrDemo ∧
    (classifyError netErrDemo).shouldFallback = true ∧
    streamRun [streamMidCandDemo, streamOkCandDemo] =
      (((streamMidCandDemo.chunks.map fun t => StreamChunk.mk t streamMidCandDemo.modelName) ++
          (streamGo 1 [(streamMidCandDemo.modelName, netErrDemo)]
            [⟨streamMidCandDemo.modelName, streamMidCandDemo.config.provider, false,
              some netErrDemo, 0⟩] [streamOkCandDemo]).1,
        (streamGo 1 [(streamMidCandDemo.modelName, netErrDemo)]
          [⟨streamMidCandDemo.modelName, streamMidCandDemo.config.provider, false,
            some netErrDemo, 0⟩] [streamOkCandDemo]).2.1,
        (streamGo 1 [(streamMidCandDemo.modelName, netErrDemo)]
          [⟨streamMidCandDemo.modelName, streamMidCandDemo.config.provider, false,
            some netErrDemo, 0⟩] [streamOkCandDemo]).2.2)) :=
  ⟨rfl, by decide,
    c2_stream_single_attempt.2 String streamMidCandDemo [streamOkCandDemo] netErrDemo
      rfl (by decide)⟩


/-! ### Alias-expansion corner cases (C9, C10): string lemmas -/

theorem takeWhile_all_append {p : Char → Bool} :
    ∀ {xs : List Char}, (∀ c ∈ xs, p c = true) →
      ∀ (y : Char), p y = false → ∀ (ys : List Char),
        (xs ++ y :: ys).takeWhile p = xs := by
  intro xs
  induction xs with
  | nil =>
    intro _ y hy ys
    simp [List.takeWhile, hy]
  | cons a as ih =>
    intro h y hy ys
    have ha := h a (List.mem_cons_self a as)
    simp only [List.cons_append, List.takeWhile_cons, ha]
    rw [ih (fun c hc => h c (List.mem_cons_of_mem a hc)) y hy ys]
    simp

theorem dropWhile_all_append {p : Char → Bool} :
    ∀ {xs : List Char}, (∀ c ∈ xs, p c = true) →
      ∀ (y : Char), p y = false → ∀ (ys : List Char),
        (xs ++ y :: ys).dropWhile p = y :: ys := by
  intro xs
  induction xs with
  | nil =>
    intro _ y hy ys
    simp [List.dropWhile, hy]
  | cons a as ih =>
    intro h y hy ys
    have ha := h a (List.mem_cons_self a as)
    simp only [List.cons_append, List.dropWhile_cons, ha, if_true]
    exact ih (fun c hc => h c (List.mem_cons_of_mem a hc)) y hy ys

/-- Constructing a weight-suffix match: any token of the shape
`x ++ ":" ++ w` with `x` non-empty and `w` a non-empty digit string is split
by the greedy regex at exactly that last colon. -/
theorem weightSplit_append {x w : List Char} (hx : x ≠ []) (hw : w ≠ [])
    (hdig : ∀ c ∈ w, c.isDigit = true) :
    weightSplit (x ++ ':' :: w) = some (x, w) := by
  have hdig' : ∀ c ∈ w.reverse, c.isDigit = true :=
    fun c hc => hdig c (List.mem_reverse.mp hc)
  have hrev : (x ++ ':' :: w).reverse = w.reverse ++ ':' :: x.reverse := by simp
  have hwr : (w.reverse).isEmpty = false := by
    cases hwr : w.reverse with
    | nil => exact absurd (by simpa using hwr) hw
    | cons a as => rfl
  have hxr : (x.reverse).isEmpty = false := by
    cases hxr : x.reverse with
    | nil => exact absurd (by simpa using hxr) hx
    | cons a as => rfl
  simp only [weightSplit, hrev,
    takeWhile_all_append hdig' ':' (by decide) x.reverse,
    dropWhile_all_append hdig' ':' (by decide) x.reverse]
  rw [hwr, hxr]
  simp

/-- Destructing a weight-suffix match: a successful split reassembles to the
original token, with non-empty prefix and digit string. -/
theorem weightSplit_eq {s p d : List Char} (h : weightSplit s = some (p, d)) :
    s = p ++ ':' :: d ∧ p ≠ [] ∧ d ≠ [] := by
  simp only [weightSplit] at h
  split at h
  · rename_i p' heq
    split at h
    · cases h
    · rename_i hcond
      injection h with h
      injection h with h1 h2
      subst h1; subst h2
      rw [Bool.or_eq_true, not_or] at hcond
      refine ⟨?_, ?_, ?_⟩
      · have hassemble := List.takeWhile_append_dropWhile Char.isDigit s.reverse
        rw [heq] at hassemble
        calc s = s.reverse.reverse := by simp
          _ = (s.reverse.takeWhile Char.isDigit ++ ':' :: p').reverse := by rw [hassemble]
          _ = p'.reverse ++ ':' :: (s.reverse.takeWhile Char.isDigit).reverse := by simp
      · intro h0
        have : p'.isEmpty = true := by
          have : p' = [] := by simpa using congrArg List.reverse h0
          simp [this]
        exact hcond.2 this
      · intro h0
        have : (s.reverse.takeWhile Char.isDigit).isEmpty = true := by
          have : s.reverse.takeWhile Char.isDigit = [] := by
            simpa using congrArg List.reverse h0
          simp [this]
        exact hcond.1 this
  · cases h

/-- A decimal digit is not JavaScript whitespace. -/
theorem digit_not_ws {c : Char} (h : c.isDigit = true) : jsWhitespace c = false := by
  by_contra hcon
  rw [Bool.not_eq_false] at hcon
  simp only [jsWhitespace, Bool.or_eq_true, decide_eq_true_eq] at hcon
  rcases hcon with ((((h1 | h1) | h1) | h1) | h1) | h1 <;> subst h1 <;>
    exact absurd h (by decide)

theorem trimRight_append {s : List Char} {c : Char} (h : jsWhitespace c = false) :
    trimRight (s ++ [c]) = s ++ [c] := by
  unfold trimRight
  simp [List.dropWhile_cons, h]

theorem trimRight_colon_digits {s w : List Char} (hw : w ≠ [])
    (hdig : ∀ c ∈ w, c.isDigit = true) :
    trimRight (s ++ ':' :: w) = s ++ ':' :: w := by
  rcases List.eq_nil_or_concat w with rfl | ⟨w', b, hwb⟩
  · exact absurd rfl hw
  · rw [List.concat_eq_append] at hwb
    subst hwb
    have hbw : jsWhitespace b = false := digit_not_ws (hdig b (by simp))
    have hshape : s ++ ':' :: (w' ++ [b]) = (s ++ ':' :: w') ++ [b] := by simp
    rw [hshape, trimRight_append hbw]

/-- Trimming a token that ends in a (non-empty) digit weight suffix only
strips leading whitespace. -/
theorem trim_append_colon_digits {s w : List Char} (hw : w ≠ [])
    (hdig : ∀ c ∈ w, c.isDigit = true) :
    trim (s ++ ':' :: w) = trimLeft s ++ ':' :: w := by
  have hTL : trimLeft (s ++ ':' :: w) = trimLeft s ++ ':' :: w := by
    unfold trimLeft
    rw [List.dropWhile_append]
    by_cases hse : (s.dropWhile jsWhitespace).isEmpty = true
    · rw [if_pos hse]
      have hnil : s.dropWhile jsWhitespace = [] := by simpa using hse
      rw [hnil, List.nil_append]
      simp [List.dropWhile_cons, jsWhitespace]
    · rw [if_neg hse]
  show trimRight (trimLeft (s ++ ':' :: w)) = _
  rw [hTL]
  exact trimRight_colon_digits hw hdig

/-- If trimming is a no-op then so is left-trimming alone. -/
theorem trimLeft_eq_self_of_trim {s : List Char} (h : trim s = s) : trimLeft s = s := by
  have hsub : List.Sublist (trimLeft s) s := List.dropWhile_sublist jsWhitespace
  refine hsub.eq_of_length ?_
  have h2 : (trim s).length ≤ (trimLeft s).length := by
    show ((trimLeft s).reverse.dropWhile jsWhitespace).reverse.length ≤ _
    calc ((trimLeft s).reverse.dropWhile jsWhitespace).reverse.length
        = ((trimLeft s).reverse.dropWhile jsWhitespace).length := by simp
      _ ≤ (trimLeft s).reverse.length := (List.dropWhile_sublist jsWhitespace).length_le
      _ = (trimLeft s).length := by simp
  rw [h] at h2
  exact Nat.le_antisymm hsub.length_le h2

/-- If trimming is a no-op then so is right-trimming alone. -/
theorem trimRight_eq_self_of_trim {s : List Char} (h : trim s = s) : trimRight s = s := by
  have hl : trimLeft s = s := trimLeft_eq_self_of_trim h
  calc trimRight s = trimRight (trimLeft s) := by rw [hl]
    _ = trim s := rfl
    _ = s := h


/-! ### The `!(...)` expansion of a negated alias can never parse -/

theorem comparisonSplit_paren (u : List Char) : comparisonSplit ('(' :: u) = none := by
  have h : isIdentStart '(' = false := by decide
  unfold comparisonSplit
  dsimp only
  rw [h]
  simp

theorem isIdent_paren (u : List Char) : isIdent ('(' :: u) = false := by
  have h : isIdentStart '(' = false := by decide
  simp [isIdent, h]

/-- A condition part that starts with `'('` matches neither the comparison
form nor the bare-identifier form, so it is an invalid condition. -/
theorem parseConditionBody_paren (u : List Char) (negated : Bool) (w : ℚ)
    (tr : List Char) :
    parseConditionBody ('(' :: u) negated w tr = .error (invalidConditionMsg tr) := by
  unfold parseConditionBody
  rw [comparisonSplit_paren]
  dsimp only
  rw [isIdent_paren]
  simp

/-- A token whose trimmed form starts with `"!("` always fails to parse:
after stripping an optional weight suffix and the `!` prefix the condition
part starts with `'('`. -/
theorem negationSplit_bang (rest : List Char) :
    negationSplit ('!' :: rest) = (true, trim rest) := rfl

theorem parseToken_bang_paren {t u : List Char} (h : trim t = '!' :: '(' :: u)
    (pos total : Nat) :
    parseToken t pos total = .error (invalidConditionMsg (trim t)) := by
  simp only [parseToken]
  cases hws : weightSplit (trim t) with
  | none =>
    dsimp only
    rw [h, negationSplit_bang]
    dsimp only
    rw [trim_cons_eq_trimRight (by decide)]
    exact parseConditionBody_paren _ _ _ _
  | some pd =>
    obtain ⟨p, d⟩ := pd
    dsimp only
    obtain ⟨hs, hp, hd⟩ := weightSplit_eq hws
    rw [h] at hs
    obtain ⟨p3, rfl⟩ : ∃ p3, p = '!' :: '(' :: p3 := by
      rcases p with _ | ⟨c1, p2⟩
      · exact absurd rfl hp
      · rcases p2 with _ | ⟨c2, p3⟩
        · exfalso
          rw [List.cons_append, List.nil_append] at hs
          injection hs with h1 hs2
          injection hs2 with h2 hs3
          exact absurd h2.symm (by decide)
        · refine ⟨p3, ?_⟩
          rw [List.cons_append, List.cons_append] at hs
          injection hs with h1 hs2
          injection hs2 with h2 hs3
          rw [h1, h2]
    rw [trim_cons_eq_trimRight (by decide), trimRight_cons (by decide), negationSplit_bang]
    dsimp only
    rw [trim_cons_eq_trimRight (by decide)]
    exact parseConditionBody_paren _ _ _ _

theorem parseTokens_cons_error {total i : Nat} {t0 : List Char}
    {ts : List (List Char)} {e : String} (h : parseToken t0 i total = .error e) :
    parseTokens total i (t0 :: ts) = .error e := by
  simp only [parseTokens, bind, Except.bind, h]

/-- If alias expansion turns the whole query into a string that starts with
`"!("`, parsing fails with `Invalid query condition`. -/
theorem parseQuery_bang_paren {q z : List Char} (aliases : Aliases)
    (hexp : expandAliases q aliases = '!' :: '(' :: z) :
    ∃ t, parseQuery q aliases = .error (invalidConditionMsg t) := by
  rcases hz : splitComma z with _ | ⟨s0, ss⟩
  · exact absurd hz (splitComma_ne_nil z)
  have h1 : splitComma ('(' :: z) = ('(' :: s0) :: ss := by
    rw [splitComma_cons '(' z hz, if_neg (by decide)]
  have htok : tokenize ('!' :: '(' :: z) =
      ('!' :: '(' :: trimRight s0) :: (ss.map trim).filter (fun t => t.length > 0) := by
    unfold tokenize
    rw [splitComma_cons '!' ('(' :: z) h1, if_neg (by decide)]
    simp only [List.map_cons, List.filter_cons]
    rw [trim_cons_eq_trimRight (by decide), trimRight_cons (by decide)]
    rw [if_pos (by simp)]
  refine ⟨'!' :: '(' :: trimRight s0, ?_⟩
  unfold parseQuery
  dsimp only
  rw [hexp, htok]
  rw [if_neg (by simp)]
  have htt : trim ('!' :: '(' :: trimRight s0) = '!' :: '(' :: trimRight s0 := by
    rw [trim_cons_eq_trimRight (by decide), trimRight_cons (by decide), trimRight_idem]
  have hf : ∀ total, parseToken ('!' :: '(' :: trimRight s0) 0 total =
      .error (invalidConditionMsg ('!' :: '(' :: trimRight s0)) := fun total => by
    have hb := parseToken_bang_paren htt 0 total
    rwa [htt] at hb
  rw [parseTokens_cons_error (hf _)]
  rfl


/-! ### Alias expansion of single-token queries -/

/-- A query consisting of a single comma-free, already-trimmed token expands
to exactly the expansion of that token. -/
theorem expandAliases_single_token (aliases : Aliases) {q : List Char}
    (hq : ',' ∉ q) (htr : trim q = q) :
    expandAliases q aliases = expandToken aliases q := by
  unfold expandAliases
  rw [splitComma_of_no_comma hq]
  simp [htr, joinWith]

/-- Expanding a weightless negated alias token `"!name"` (with a non-empty
replacement) produces `"!(" ++ replacement ++ ")"`. -/
theorem expandToken_neg_alias {aliases : Aliases} {name r : List Char}
    (hws : weightSplit ('!' :: name) = none)
    (hlook : aliasLookup aliases name = some r) (hr : r ≠ []) :
    expandToken aliases ('!' :: name) = '!' :: '(' :: (r ++ [')']) := by
  have hre : r.isEmpty = false := by
    cases r with
    | nil => exact absurd rfl hr
    | cons a as => rfl
  simp only [expandToken, hws, hlook, hre]
  simp

/-- Expanding a negated alias token with a digit weight suffix
`"!name:w"` (with a non-empty replacement) produces
`"!(" ++ replacement ++ ")" ++ ":w"`, which still starts with `"!("`. -/
theorem expandToken_neg_alias_weight {aliases : Aliases} {name r w : List Char}
    (htr : trim name = name)
    (hlook : aliasLookup aliases name = some r) (hr : r ≠ [])
    (hw : w ≠ []) (hdig : ∀ c ∈ w, c.isDigit = true) :
    expandToken aliases ('!' :: name ++ ':' :: w) = '!' :: '(' :: ((r ++ [')']) ++ ':' :: w) := by
  have hre : r.isEmpty = false := by
    cases r with
    | nil => exact absurd rfl hr
    | cons a as => rfl
  have hsplit : weightSplit ('!' :: name ++ ':' :: w) = some ('!' :: name, w) :=
    weightSplit_append (by simp) hw hdig
  have hbt : trim ('!' :: name) = '!' :: name := by
    rw [trim_cons_eq_trimRight (by decide), trimRight_eq_self_of_trim htr]
  simp only [expandToken, hsplit, hbt, hlook, hre]
  simp

/-- Expanding a non-negated alias token with a digit weight suffix
`"name:w"` (with a non-empty replacement) produces
`replacement ++ ":w"`. -/
theorem expandToken_alias_weight {aliases : Aliases} {name r w : List Char}
    (htr : trim name = name) (hneg : ∀ rest, name ≠ '!' :: rest) (hname : name ≠ [])
    (hlook : aliasLookup aliases name = some r) (hr : r ≠ [])
    (hw : w ≠ []) (hdig : ∀ c ∈ w, c.isDigit = true) :
    expandToken aliases (name ++ ':' :: w) = r ++ ':' :: w := by
  have hre : r.isEmpty = false := by
    cases r with
    | nil => exact absurd rfl hr
    | cons a as => rfl
  have hsplit : weightSplit (name ++ ':' :: w) = some (name, w) :=
    weightSplit_append hname hw hdig
  simp only [expandToken, hsplit, htr, hlook, hre]
  simp


/-- C9 counterexample.  The implicit claim says negating *any* alias defined
in the map fails to parse; but an alias bound to the **empty** replacement
string is falsy in JavaScript (`if (aliases[lookupToken])`), so it is not
expanded at all: with `aliases = {fast: ""}` the query `"!fast"` parses
successfully as an ordinary negated bare-identifier condition on `fast`
(weight 1), not as an `Invalid query condition` error. -/
theorem c9_empty_alias_counterexample :
    aliasLookup [("fast".toList, [])] "fast".toList = some [] ∧
    parseQuery "!fast".toList [("fast".toList, [])] =
      .ok ⟨[⟨"fast".toList, .eq, .bool true, true, 1⟩]⟩ :=
  ⟨rfl, rfl⟩

/-- C9 (amended).  Negating an alias with a **non-empty** replacement always
fails to parse: for every alias map and every name bound in it to a
non-empty replacement, a single-token query `"!name"` — without
(part 1, `weightSplit` finds no weight suffix) or with (part 2) a digit
weight suffix — expands to `"!(" ++ replacement ++ ")"` (plus the re-appended
suffix), whose condition part starts with `'('` and therefore matches neither
the comparison form nor the bare-identifier form of the token grammar, so
`parseQuery` fails with an `Invalid query condition` error. -/
theorem c9_negated_alias_invalid :
    (∀ (aliases : Aliases) (name r : List Char),
      aliasLookup aliases name = some r → r ≠ [] →
      ',' ∉ name → trim ('!' :: name) = '!' :: name →
      weightSplit ('!' :: name) = none →
      ∃ t, parseQuery ('!' :: name) aliases = .error (invalidConditionMsg t)) ∧
    (∀ (aliases : Aliases) (name r w : List Char),
      aliasLookup aliases name = some r → r ≠ [] →
      ',' ∉ name → trim name = name →
      w ≠ [] → (∀ c ∈ w, c.isDigit = true) →
      ∃ t, parseQuery ('!' :: name ++ ':' :: w) aliases =
        .error (invalidConditionMsg t)) := by
  constructor
  · intro aliases name r hlook hr hcomma htr hws
    have hq : ',' ∉ '!' :: name := by
      intro hm
      rcases List.mem_cons.mp hm with h | h
      · exact absurd h.symm (by decide)
      · exact hcomma h
    have hexp : expandAliases ('!' :: name) aliases = '!' :: '(' :: (r ++ [')']) := by
      rw [expandAliases_single_token aliases hq htr]
      exact expandToken_neg_alias hws hlook hr
    exact parseQuery_bang_paren aliases hexp
  · intro aliases name r w hlook hr hcomma htr hw hdig
    have hq : ',' ∉ '!' :: name ++ ':' :: w := by
      intro hm
      rcases List.mem_cons.mp hm with h | h
      · exact absurd h.symm (by decide)
      · rcases List.mem_append.mp h with h | h
        · exact hcomma h
        · rcases List.mem_cons.mp h with h | h
          · exact absurd h.symm (by decide)
          · exact absurd (hdig ',' h) (by decide)
    have htq : trim ('!' :: name ++ ':' :: w) = '!' :: name ++ ':' :: w := by
      have h0 : trim (('!' :: name) ++ ':' :: w) = trimLeft ('!' :: name) ++ ':' :: w :=
        trim_append_colon_digits hw hdig
      rw [trimLeft_cons (by decide)] at h0
      simpa using h0
    have hexp : expandAliases ('!' :: name ++ ':' :: w) aliases =
        '!' :: '(' :: ((r ++ [')']) ++ ':' :: w) := by
      rw [expandAliases_single_token aliases hq htq]
      exact expandToken_neg_alias_weight htr hlook hr hw hdig
    exact parseQuery_bang_paren aliases hexp

/-- C9 witness: both parts of the amended theorem at the concrete alias map
`{fast: "local"}` — the queries `"!fast"` and `"!fast:3"` both fail with an
`Invalid query condition` error. -/
theorem c9_negated_alias_invalid_witness :
    (∃ t, parseQuery "!fast".toList [("fast".toList, "local".toList)] =
      .error (invalidConditionMsg t)) ∧
    (∃ t, parseQuery "!fast:3".toList [("fast".toList, "local".toList)] =
      .error (invalidConditionMsg t)) :=
  ⟨c9_negated_alias_invalid.1 [("fast".toList, "local".toList)]
      "fast".toList "local".toList rfl (by decide) (by decide) rfl rfl,
    c9_negated_alias_invalid.2 [("fast".toList, "local".toList)]
      "fast".toList "local".toList "3".toList rfl (by decide) (by decide) rfl
      (by decide) (by decide)⟩


/-! ### Weight suffix on a multi-condition alias (C10) -/

theorem joinWith_cons (sep x : List Char) {xs : List (List Char)} (h : xs ≠ []) :
    joinWith sep (x :: xs) = x ++ sep ++ joinWith sep xs := by
  rcases xs with _ | ⟨y, ys⟩
  · exact absurd rfl h
  · rfl

/-- Appending a comma-free tail to a comma-joined list of comma-free pieces
extends exactly the last piece. -/
theorem splitComma_join_extend {z : List Char} (hz : ',' ∉ z) :
    ∀ (init : List (List Char)) (lastPiece : List Char),
      (∀ s ∈ init, ',' ∉ s) → ',' ∉ lastPiece →
      splitComma (joinWith [','] (init ++ [lastPiece]) ++ z) = init ++ [lastPiece ++ z]
  | [], lastPiece, _, hlast => by
    simp only [List.nil_append, joinWith]
    exact splitComma_of_no_comma (by
      intro hm
      rcases List.mem_append.mp hm with h | h
      exacts [hlast h, hz h])
  | s :: init, lastPiece, hinit, hlast => by
    have hs : ',' ∉ s := hinit s (List.mem_cons_self s init)
    have hrec := splitComma_join_extend hz init lastPiece
      (fun x hx => hinit x (List.mem_cons_of_mem s hx)) hlast
    have hne : init ++ [lastPiece] ≠ [] := by simp
    rw [List.cons_append, joinWith_cons [','] s hne]
    have hshape : (s ++ [','] ++ joinWith [','] (init ++ [lastPiece])) ++ z =
        s ++ ',' :: (joinWith [','] (init ++ [lastPiece]) ++ z) := by simp
    rw [hshape, splitComma_append hs, hrec]
    simp

/-- The comma-join of a list containing at least two pieces is non-empty. -/
theorem joinWith_comma_ne_nil {init : List (List Char)} (lastPiece : List Char)
    (h : init ≠ []) : joinWith [','] (init ++ [lastPiece]) ≠ [] := by
  rcases init with _ | ⟨s, init'⟩
  · exact absurd rfl h
  · rw [List.cons_append, joinWith_cons [','] s (by simp)]
    simp


/-- Tokenizing an expanded multi-piece alias replacement with a re-appended
digit weight suffix: one token per piece, the suffix glued onto the last. -/
theorem tokenize_join_extend {w : List Char} (hw : w ≠ [])
    (hdig : ∀ c ∈ w, c.isDigit = true)
    (init : List (List Char)) (lastPiece : List Char)
    (hinitc : ∀ s ∈ init, ',' ∉ s) (hlastc : ',' ∉ lastPiece)
    (hinitne : ∀ s ∈ init, trim s ≠ []) :
    tokenize (joinWith [','] (init ++ [lastPiece]) ++ ':' :: w) =
      init.map trim ++ [trimLeft lastPiece ++ ':' :: w] := by
  have hzc : ',' ∉ (':' :: w) := by
    intro hm
    rcases List.mem_cons.mp hm with h | h
    · exact absurd h.symm (by decide)
    · exact absurd (hdig ',' h) (by decide)
  unfold tokenize
  rw [splitComma_join_extend hzc init lastPiece hinitc hlastc]
  rw [List.map_append, List.map_cons, List.map_nil]
  have hlasttrim : trim (lastPiece ++ ':' :: w) = trimLeft lastPiece ++ ':' :: w :=
    trim_append_colon_digits hw hdig
  rw [hlasttrim, List.filter_append]
  have hfilter : (init.map trim).filter (fun t => t.length > 0) = init.map trim :=
    List.filter_eq_self.mpr (fun t ht => by
      rcases List.mem_map.mp ht with ⟨s0, hs0, rfl⟩
      simp only [decide_eq_true_eq, List.length_pos]
      exact hinitne s0 hs0)
  rw [hfilter, List.filter_cons, if_pos (by simp)]
  rfl

/-- C10 (amended).  For an alias whose replacement consists of two or more
comma-separated sub-conditions, **none of which carries its own weight
suffix**, a query token `"name:w"` (digit weight `w`) expands so that only
the final sub-condition receives `w`, while the sub-condition at position
`i` among the `k = init.length + 1` expanded tokens receives the
position-based default weight `k - i`. -/
theorem c10_alias_weight_last (aliases : Aliases) (name w lastPiece : List Char)
    (init : List (List Char)) (q : ParsedQuery)
    (hlook : aliasLookup aliases name = some (joinWith [','] (init ++ [lastPiece])))
    (hinitc : ∀ s ∈ init, ',' ∉ s) (hlastc : ',' ∉ lastPiece)
    (hinitne : ∀ s ∈ init, trim s ≠ []) (hlastne : trim lastPiece ≠ [])
    (hinitnw : ∀ s ∈ init, weightSplit (trim s) = none)
    (hinit1 : init ≠ [])
    (hnamec : ',' ∉ name) (hnametr : trim name = name) (hnamene : name ≠ [])
    (hnameneg : ∀ rest, name ≠ '!' :: rest)
    (hw : w ≠ []) (hdig : ∀ c ∈ w, c.isDigit = true)
    (hok : parseQuery (name ++ ':' :: w) aliases = .ok q) :
    q.conditions.length = init.length + 1 ∧
    (∀ i, i < init.length →
      ∃ c, q.conditions[i]? = some c ∧
        c.weight = ((init.length + 1 - i : Nat) : ℚ)) ∧
    (∃ c, q.conditions[init.length]? = some c ∧
      c.weight = (digitsToNat w : ℚ)) := by
  have hr : joinWith [','] (init ++ [lastPiece]) ≠ [] :=
    joinWith_comma_ne_nil lastPiece hinit1
  have hqc : ',' ∉ name ++ ':' :: w := by
    intro hm
    rcases List.mem_append.mp hm with h | h
    · exact hnamec h
    · rcases List.mem_cons.mp h with h | h
      · exact absurd h.symm (by decide)
      · exact absurd (hdig ',' h) (by decide)
  have hqtr : trim (name ++ ':' :: w) = name ++ ':' :: w := by
    have h0 : trim (name ++ ':' :: w) = trimLeft name ++ ':' :: w :=
      trim_append_colon_digits hw hdig
    rw [trimLeft_eq_self_of_trim hnametr] at h0
    exact h0
  have hexp : expandAliases (name ++ ':' :: w) aliases =
      joinWith [','] (init ++ [lastPiece]) ++ ':' :: w := by
    rw [expandAliases_single_token aliases hqc hqtr]
    exact expandToken_alias_weight hnametr hnameneg hnamene hlook hr hw hdig
  have htok := tokenize_join_extend hw hdig init lastPiece hinitc hlastc hinitne
  unfold parseQuery at hok
  dsimp only at hok
  rw [hexp, htok] at hok
  rw [if_neg (by simp)] at hok
  simp only [Except.map] at hok
  cases hpt : parseTokens (init.map trim ++ [trimLeft lastPiece ++ ':' :: w]).length 0
      (init.map trim ++ [trimLeft lastPiece ++ ':' :: w]) with
  | error e => rw [hpt] at hok; cases hok
  | ok cs =>
    rw [hpt] at hok
    cases hok
    have hN : (init.map trim ++ [trimLeft lastPiece ++ ':' :: w]).length =
        init.length + 1 := by simp
    refine ⟨?_, ?_, ?_⟩
    · show cs.length = init.length + 1
      rw [parseTokens_ok_length hpt, hN]
    · intro i hi
      have hsome : init[i]? = some init[i] := List.getElem?_eq_getElem hi
      have hmem : init[i] ∈ init := List.getElem?_mem hsome
      have htoki : (init.map trim ++ [trimLeft lastPiece ++ ':' :: w])[i]? =
          some (trim init[i]) := by
        rw [List.getElem?_append_left (by simpa using hi), List.getElem?_map, hsome]
        rfl
      obtain ⟨c, hc, hcw⟩ := parseTokens_ok_weight hpt i (trim init[i]) htoki
      refine ⟨c, hc, ?_⟩
      rw [hcw]
      have hwnone : weightSplit (trim init[i]) = none := hinitnw _ hmem
      simp only [tokenWeight, trim_idem, hwnone]
      have hsub : (init.map trim ++ [trimLeft lastPiece ++ ':' :: w]).length - (0 + i) =
          init.length + 1 - i := by simp
      rw [hsub]
    · have hlast_tok : (init.map trim ++ [trimLeft lastPiece ++ ':' :: w])[init.length]? =
          some (trimLeft lastPiece ++ ':' :: w) := by
        rw [List.getElem?_append_right (by simp)]
        simp
      obtain ⟨c, hc, hcw⟩ := parseTokens_ok_weight hpt init.length _ hlast_tok
      have hTLlast : trimLeft lastPiece ≠ [] := by
        intro h0
        apply hlastne
        show trimRight (trimLeft lastPiece) = []
        rw [h0]
        rfl
      have htl : trim (trimLeft lastPiece ++ ':' :: w) = trimLeft lastPiece ++ ':' :: w := by
        have h0 : trim (trimLeft lastPiece ++ ':' :: w) =
            trimLeft (trimLeft lastPiece) ++ ':' :: w :=
          trim_append_colon_digits hw hdig
        rw [trimLeft_idem] at h0
        exact h0
      have hwsplit : weightSplit (trimLeft lastPiece ++ ':' :: w) =
          some (trimLeft lastPiece, w) :=
        weightSplit_append hTLlast hw hdig
      refine ⟨c, hc, ?_⟩
      rw [hcw]
      simp only [tokenWeight, htl, hwsplit]


/-- C10 counterexample.  The implicit claim says *each earlier* sub-condition
of an expanded multi-condition alias receives the position-based default
weight; but a sub-condition that carries its own weight suffix keeps it:
with `aliases = {m: "a:5, b"}` the query `"m:3"` expands to `"a:5, b:3"`, and
the first condition gets weight 5 (its own suffix), not the position default
`k - i = 2 - 0 = 2`. -/
theorem c10_alias_weight_counterexample :
    parseQuery "m:3".toList [("m".toList, "a:5, b".toList)] =
      .ok ⟨[⟨"a".toList, .eq, .bool true, false, 5⟩,
            ⟨"b".toList, .eq, .bool true, false, 3⟩]⟩ ∧
    (5 : ℚ) ≠ 2 :=
  ⟨rfl, by decide⟩

/-- The parse of `"m:3"` under `{m: "a, b"}`, for the C10 witness: first
condition gets the default weight 2, the last the explicit weight 3. -/
def c10ExampleParsed : ParsedQuery :=
  ⟨[⟨"a".toList, .eq, .bool true, false, 2⟩,
    ⟨"b".toList, .eq, .bool true, false, 3⟩]⟩

/-- C10 witness: the amended theorem at the concrete alias map
`{m: "a, b"}` (two weightless sub-conditions) and query `"m:3"`. -/
theorem c10_alias_weight_last_witness :
    c10ExampleParsed.conditions.length = 2 ∧
    (∀ i, i < 1 →
      ∃ c, c10ExampleParsed.conditions[i]? = some c ∧
        c.weight = ((1 + 1 - i : Nat) : ℚ)) ∧
    (∃ c, c10ExampleParsed.conditions[1]? = some c ∧
      c.weight = (digitsToNat "3".toList : ℚ)) :=
  c10_alias_weight_last [("m".toList, "a, b".toList)] "m".toList "3".toList
    " b".toList ["a".toList] c10ExampleParsed rfl (by decide) (by decide)
    (by decide) (by decide) (by decide) (by decide) (by decide) rfl (by decide)
    (by
      intro rest h
      rw [show "m".toList = ['m'] from rfl] at h
      simp at h)
    (by decide) (by decide) rfl

end ModelSelector
